import Mathlib

/-!
# Receipt points service (`fetch.go`)

A shallow embedding of the scoring function `CalculatePoints`, of the in-memory
store `pointsForReceipt` with `ProcessReceipt` / `LookupPointsByReceiptID` /
`GetPointsForReceipt`, and of the library functions they call
(`strconv.ParseFloat`, float64 arithmetic, `math.Ceil`, `strings.TrimSpace`,
`regexp`, `time.Parse`).

Conventions.
* Go `int` is the 64-bit two's-complement integer: results are `Int` reduced
  with `wrap64`.
* Go strings that come out of `encoding/json` are valid UTF-8, so a Go string
  is a Lean `String`; `len` is the UTF-8 byte length.
* A finite float64 is stored as an integer number of units of `2^-1074`
  (the smallest subnormal), so every finite double has exactly one
  representation; the sign of zero is not tracked (nothing in `fetch.go`
  observes it).
-/

namespace Fetch

/-! ## float64 -/

/-- A float64 value: NaN, an infinity, or the finite value `k * 2^-1074`. -/
inductive Float64 where
  | nan
  | inf (neg : Bool)
  | fin (k : Int)
deriving DecidableEq, Repr

/-- Number of units of `2^-1074` in `1.0`. -/
def unit : Nat := 2 ^ 1074

/-- The largest finite float64, `(2^53 - 1) * 2^971`, in units of `2^-1074`. -/
def maxFinite : Nat := (2 ^ 53 - 1) * 2 ^ 2045

/-- Number of low bits that must be dropped from `q` to leave at most 53
significant bits; `fuel` bounds the search, and `fuel = q` always suffices. -/
def excessBits : Nat → Nat → Nat
  | 0, _ => 0
  | fuel + 1, q => if q < 2 ^ 53 then 0 else excessBits fuel (q / 2) + 1

/-- IEEE 754 round-to-nearest, ties-to-even, of the non-negative rational
`n / d` (in units of `2^-1074`) to a 53-bit significand. The result may exceed
`maxFinite`; the callers turn that into overflow. -/
def roundNearestEven (n d : Nat) : Nat :=
  let s := excessBits (n / d) (n / d)
  let d2 := d * 2 ^ s
  let m := n / d2
  let r := n % d2
  let m1 := if 2 * r < d2 then m else if d2 < 2 * r then m + 1
            else if m % 2 = 0 then m else m + 1
  m1 * 2 ^ s

/-- Apply a sign to a magnitude. -/
def signed (neg : Bool) (k : Nat) : Int := if neg then -(k : Int) else (k : Int)

/-- Round the rational `(-1)^neg * n / d` (units of `2^-1074`) to float64;
overflow gives an infinity, as for the arithmetic operations. -/
def roundToFloat64 (neg : Bool) (n d : Nat) : Float64 :=
  let k := roundNearestEven n d
  if maxFinite < k then Float64.inf neg else Float64.fin (signed neg k)

/-- The float64 product `x * y`. -/
def Float64.mul : Float64 → Float64 → Float64
  | .nan, _ => .nan
  | _, .nan => .nan
  | .inf a, .inf b => .inf (a != b)
  | .inf a, .fin k => if k = 0 then .nan else .inf (a != decide (k < 0))
  | .fin k, .inf b => if k = 0 then .nan else .inf (decide (k < 0) != b)
  | .fin a, .fin b =>
      roundToFloat64 (decide (a < 0) != decide (b < 0)) (a.natAbs * b.natAbs) unit

/-- The Go comparison `x == y` on float64 (NaN is unequal to everything). -/
def Float64.eq : Float64 → Float64 → Bool
  | .fin a, .fin b => decide (a = b)
  | .inf a, .inf b => a == b
  | _, _ => false

/-- The function `math.Ceil`: least integer value not below `x`; NaN and the
infinities are returned unchanged. -/
def Ceil : Float64 → Float64
  | .fin k => .fin (-((-k) / (unit : Int)) * (unit : Int))
  | x => x

/-- Reduction of an integer to the int64 range (two's complement wrap). -/
def wrap64 (x : Int) : Int := (x + 2 ^ 63) % 2 ^ 64 - 2 ^ 63

/-- Go `a + b` on `int`. -/
def add64 (a b : Int) : Int := wrap64 (a + b)

/-- Go `a - b` on `int`. -/
def sub64 (a b : Int) : Int := wrap64 (a - b)

/-- The result of a float64 to `int` conversion whose value is not
representable (NaN, infinities, magnitude beyond int64). The Go specification
leaves it implementation-dependent; it is a parameter of the model. -/
abbrev OutOfRange := Float64 → Int

/-- The amd64 behaviour (`CVTTSD2SQ`): the "integer indefinite" value
`-2^63`. -/
def amd64 : OutOfRange := fun _ => -(2 ^ 63)

/-- A saturating conversion (arm64 `FCVTZS`): the nearest end of the int64
range, and 0 for NaN. -/
def arm64 : OutOfRange := fun x =>
  match x with
  | .nan => 0
  | .inf neg => if neg then -(2 ^ 63) else 2 ^ 63 - 1
  | .fin k => if k < 0 then -(2 ^ 63) else 2 ^ 63 - 1

/-- The conversion `int(x)`: truncation toward zero when the truncated value
fits in int64, else the platform's out-of-range result. -/
def toInt (oor : OutOfRange) (x : Float64) : Int :=
  match x with
  | .fin k =>
      let t := Int.tdiv k (unit : Int)
      if -(2 ^ 63) ≤ t ∧ t < 2 ^ 63 then t else wrap64 (oor x)
  | _ => wrap64 (oor x)

/-- The conversion `float64(i)` of an `int`. -/
def ofInt (i : Int) : Float64 :=
  roundToFloat64 (decide (i < 0)) (i.natAbs * unit) 1

/-! ## strconv.ParseFloat -/

deriving instance DecidableEq for Except

/-- The two error kinds of `strconv`: malformed text, value out of range. -/
inductive NumError where
  | ErrSyntax
  | ErrRange
deriving DecidableEq, Repr

/-- ASCII decimal digit test (`'0' <= c && c <= '9'`). -/
def isDigit (c : Char) : Bool := decide ('0' ≤ c) && decide (c ≤ '9')

/-- Value of a decimal digit (`c - '0'`). -/
def digitVal (c : Char) : Nat := c.toNat - 48

/-- The letters `a`..`f` in either case, as tested by `'a' <= lower(c) <= 'f'`. -/
def isHexLetter (c : Char) : Bool :=
  (decide ('a' ≤ c) && decide (c ≤ 'f')) || (decide ('A' ≤ c) && decide (c ≤ 'F'))

/-- Value of a hexadecimal letter (`lower(c) - 'a' + 10`). -/
def hexLetterVal (c : Char) : Nat :=
  if decide ('a' ≤ c) then c.toNat - 97 + 10 else c.toNat - 65 + 10

/-- ASCII lower-casing of `A`..`Z`, as in `commonPrefixLenIgnoreCase`. -/
def lowerAZ (c : Char) : Char :=
  if 'A' ≤ c ∧ c ≤ 'Z' then Char.ofNat (c.toNat + 32) else c

/-- Length of the common prefix of `s` and the lower-case pattern `pat`,
ignoring the case of `s`. -/
def commonPrefixLenIgnoreCase : List Char → List Char → Nat
  | c :: s, p :: pat => if lowerAZ c = p then commonPrefixLenIgnoreCase s pat + 1 else 0
  | _, _ => 0

/-- The `i`/`I` case of `special`: `inf` or `infinity`, in any case. -/
def specialInf (neg : Bool) (nsign : Nat) (s : List Char) : Option (Float64 × Nat) :=
  let n := commonPrefixLenIgnoreCase s "infinity".toList
  let n := if 3 < n ∧ n < 8 then 3 else n
  if n = 3 ∨ n = 8 then some (Float64.inf neg, nsign + n) else none

/-- The function `special` of `strconv`: recognises a possibly signed
infinity and an unsigned NaN at the start of `s`; returns the value and the
number of characters consumed. -/
def special (s : List Char) : Option (Float64 × Nat) :=
  match s with
  | [] => none
  | c :: rest =>
    if c = '+' ∨ c = '-' then specialInf (decide (c = '-')) 1 rest
    else if c = 'i' ∨ c = 'I' then specialInf false 0 s
    else if c = 'n' ∨ c = 'N' then
      if commonPrefixLenIgnoreCase s "nan".toList = 3 then some (Float64.nan, 3) else none
    else none

/-- The function `underscoreOK` after its optional sign and base prefix:
`saw` is the kind of the last character (`'^'`, `'0'`, `'_'` or `'!'`). -/
def underscoreLoop (hex : Bool) : Char → List Char → Bool
  | saw, [] => saw != '_'
  | saw, c :: cs =>
    if isDigit c || (hex && isHexLetter c) then underscoreLoop hex '0' cs
    else if c = '_' then
      if saw != '0' then false else underscoreLoop hex '_' cs
    else if saw = '_' then false
    else underscoreLoop hex '!' cs

/-- The function `underscoreOK`: underscores only between digits, or between a
base prefix and a digit. -/
def underscoreOK (s : List Char) : Bool :=
  let s := match s with
    | c :: rest => if c = '-' ∨ c = '+' then rest else s
    | [] => s
  match s with
  | '0' :: b :: rest =>
    if b = 'b' ∨ b = 'B' ∨ b = 'o' ∨ b = 'O' ∨ b = 'x' ∨ b = 'X' then
      underscoreLoop (decide (b = 'x' ∨ b = 'X')) '0' rest
    else underscoreLoop false '^' s
  | _ => underscoreLoop false '^' s

/-- Loop state of the digit scan of `readFloat`. The significand is kept
exactly (Go keeps 19 digits and a truncation flag, and falls back to a full
decimal conversion; the result is the correctly rounded value either way). -/
structure Scan where
  sawdot : Bool
  sawdigits : Bool
  nd : Nat
  dp : Int
  mantissa : Nat
  underscores : Bool
deriving Repr

/-- The digit loop of `readFloat`: returns the state at the first character
that is not part of the significand, and the unread rest. -/
def readDigits (hex : Bool) : Scan → List Char → Scan × List Char
  | st, [] => (st, [])
  | st, c :: cs =>
    if c = '_' then readDigits hex { st with underscores := true } cs
    else if c = '.' then
      if st.sawdot then (st, c :: cs)
      else readDigits hex { st with sawdot := true, dp := st.nd } cs
    else if isDigit c then
      if c = '0' ∧ st.nd = 0 then
        readDigits hex { st with sawdigits := true, dp := st.dp - 1 } cs
      else
        readDigits hex { st with sawdigits := true, nd := st.nd + 1,
                                  mantissa := st.mantissa * (if hex then 16 else 10) + digitVal c } cs
    else if hex && isHexLetter c then
      readDigits hex { st with sawdigits := true, nd := st.nd + 1,
                                mantissa := st.mantissa * 16 + hexLetterVal c } cs
    else (st, c :: cs)

/-- The exponent digit loop of `readFloat`: the exponent stops growing once it
has reached 10000. Returns the exponent, whether an underscore was seen, and
the unread rest. -/
def readExpDigits : Nat → Bool → List Char → Nat × Bool × List Char
  | e, u, [] => (e, u, [])
  | e, u, c :: cs =>
    if isDigit c then readExpDigits (if e < 10000 then e * 10 + digitVal c else e) u cs
    else if c = '_' then readExpDigits e true cs
    else (e, u, c :: cs)

/-- Result of `readFloat`: the number is `(-1)^neg * mantissa * base^exp` with
base 10, or base 2 when `hex`; `rest` is the unread input. -/
structure Scanned where
  neg : Bool
  mantissa : Nat
  exp : Int
  hex : Bool
  rest : List Char
deriving Repr

/-- The function `readFloat` of `strconv`; `none` is its `ok = false`. -/
def readFloat (s : List Char) : Option Scanned :=
  match s with
  | [] => none
  | c0 :: tail =>
    let neg := decide (c0 = '-')
    let s1 := if c0 = '+' ∨ c0 = '-' then tail else s
    let hex := match s1 with
      | '0' :: x :: _ :: _ => decide (x = 'x' ∨ x = 'X')
      | _ => false
    let s2 := if hex then s1.drop 2 else s1
    let (st, s3) := readDigits hex ⟨false, false, 0, 0, 0, false⟩ s2
    if !st.sawdigits then none
    else
      let dp : Int := if st.sawdot then st.dp else st.nd
      let dp : Int := if hex then dp * 4 else dp
      let ndMant : Int := if hex then st.nd * 4 else st.nd
      let finish (dp : Int) (underscores : Bool) (rest : List Char) : Option Scanned :=
        if underscores && !underscoreOK (s.take (s.length - rest.length)) then none
        else some ⟨neg, st.mantissa, if st.mantissa ≠ 0 then dp - ndMant else 0, hex, rest⟩
      match s3 with
      | e :: s4 =>
        if (if hex then e = 'p' ∨ e = 'P' else e = 'e' ∨ e = 'E') then
          match s4 with
          | [] => none
          | sg :: s5 =>
            let esign : Int := if sg = '-' then -1 else 1
            let s6 := if sg = '+' ∨ sg = '-' then s5 else s4
            match s6 with
            | [] => none
            | d :: _ =>
              if !isDigit d then none
              else
                let (ex, u, rest) := readExpDigits 0 false s6
                finish (dp + ex * esign) (st.underscores || u) rest
        else if hex then none
        else finish dp st.underscores s3
      | [] => if hex then none else finish dp st.underscores s3

/-- Conversion of the scanned number to float64 (`atof64` after `readFloat`,
and `atofHex`): the nearest float64, ties to even; a result beyond the largest
finite value is `ErrRange`. -/
def convert (r : Scanned) : Except NumError Float64 :=
  let base : Nat := if r.hex then 2 else 10
  let n := if 0 ≤ r.exp then r.mantissa * base ^ r.exp.toNat * unit else r.mantissa * unit
  let d := if 0 ≤ r.exp then 1 else base ^ (-r.exp).toNat
  let k := roundNearestEven n d
  if maxFinite < k then .error .ErrRange else .ok (Float64.fin (signed r.neg k))

/-- The function `strconv.ParseFloat(s, 64)`: the whole of `s` must be a
decimal or hexadecimal floating-point number (underscores as in Go literals),
an infinity or NaN. -/
def ParseFloat (s : String) : Except NumError Float64 :=
  let cs := s.toList
  match special cs with
  | some (v, n) => if n = cs.length then .ok v else .error .ErrSyntax
  | none =>
    match readFloat cs with
    | none => .error .ErrSyntax
    | some r => if r.rest.isEmpty then convert r else .error .ErrSyntax

/-! ## strings, regexp -/

/-- Go `len(s)`: the number of bytes of the UTF-8 encoding. -/
def len (s : List Char) : Nat := (s.map Char.utf8Size).sum

/-- The predicate `unicode.IsSpace`: the Latin-1 spaces and the characters
with the Unicode White_Space property. -/
def isSpace (c : Char) : Bool :=
  let n := c.toNat
  n = 0x09 || n = 0x0A || n = 0x0B || n = 0x0C || n = 0x0D || n = 0x20
    || n = 0x85 || n = 0xA0 || n = 0x1680 || (0x2000 ≤ n && n ≤ 0x200A)
    || n = 0x2028 || n = 0x2029 || n = 0x202F || n = 0x205F || n = 0x3000

/-- The function `strings.TrimSpace`: drop leading and trailing white space. -/
def TrimSpace (s : List Char) : List Char :=
  ((s.dropWhile isSpace).reverse.dropWhile isSpace).reverse

/-- A regexp character class as a list of inclusive ranges. -/
abbrev CharClass := List (Char × Char)

/-- The pattern `[a-zA-Z0-9]` compiled by `regexp.MustCompile`. -/
def alnumClass : CharClass := [('a', 'z'), ('A', 'Z'), ('0', '9')]

/-- Whether a character belongs to a class. -/
def CharClass.matches (cls : CharClass) (c : Char) : Bool :=
  cls.any fun r => decide (r.1 ≤ c) && decide (c ≤ r.2)

/-- The call `FindAllString(s, -1)` for a one-class pattern: the successive
non-overlapping matches, each a single character. -/
def FindAllString (cls : CharClass) : List Char → List String
  | [] => []
  | c :: cs => if cls.matches c then String.singleton c :: FindAllString cls cs
               else FindAllString cls cs

/-! ## time.Parse -/

/-- A `time.Time` in UTC as its calendar and clock fields. -/
structure Time where
  year : Nat
  month : Nat
  day : Nat
  hour : Nat
  min : Nat
deriving DecidableEq, Repr

/-- The call `time.Date(year, month, day, hour, min, 0, 0, time.UTC)` for
fields that are already in range. -/
def Date (year month day hour min : Nat) : Time := ⟨year, month, day, hour, min⟩

/-- The method `Time.Day`. -/
def Time.Day (t : Time) : Nat := t.day

/-- The civil fields of `t` as the digits of one mixed-radix number; for
fields in range it orders instants the way the absolute time does. -/
def Time.key (t : Time) : Nat :=
  (((t.year * 13 + t.month) * 32 + t.day) * 24 + t.hour) * 60 + t.min

/-- The method `t.After(u)`. -/
def Time.After (t u : Time) : Bool := decide (u.key < t.key)

/-- The method `t.Before(u)`. -/
def Time.Before (t u : Time) : Bool := decide (t.key < u.key)

/-- The function `getnum` of package `time`: one or two digits, exactly two
when `fixed`. -/
def getnum (s : List Char) (fixed : Bool) : Option (Nat × List Char) :=
  match s with
  | a :: b :: rest =>
    if !isDigit a then none
    else if !isDigit b then (if fixed then none else some (digitVal a, b :: rest))
    else some (digitVal a * 10 + digitVal b, rest)
  | [a] => if !isDigit a then none else if fixed then none else some (digitVal a, [])
  | [] => none

/-- The function `isLeap`. -/
def isLeap (year : Nat) : Bool := year % 4 = 0 && (year % 100 ≠ 0 || year % 400 = 0)

/-- The function `daysIn`. -/
def daysIn (m : Nat) (year : Nat) : Nat :=
  if m = 2 then (if isLeap year then 29 else 28)
  else if m = 4 ∨ m = 6 ∨ m = 9 ∨ m = 11 then 30 else 31

/-- Skip one literal character of the layout (`skip` with a one-character
literal that is not a space). -/
def skipChar (c : Char) (s : List Char) : Option (List Char) :=
  match s with
  | x :: rest => if x = c then some rest else none
  | [] => none

/-- The call `time.Parse("2006-01-02", value)`: four-digit year, two-digit
month in 1..12, two-digit day valid for the month, nothing after. -/
def parseDate (value : List Char) : Option Time :=
  match value with
  | y1 :: y2 :: y3 :: y4 :: v1 =>
    if !(isDigit y1 && isDigit y2 && isDigit y3 && isDigit y4) then none
    else
      let year := ((digitVal y1 * 10 + digitVal y2) * 10 + digitVal y3) * 10 + digitVal y4
      match skipChar '-' v1 with
      | none => none
      | some v2 =>
        match getnum v2 true with
        | none => none
        | some (month, v3) =>
          match skipChar '-' v3 with
          | none => none
          | some v4 =>
            match getnum v4 true with
            | none => none
            | some (day, v5) =>
              if month = 0 ∨ 12 < month then none
              else if !v5.isEmpty then none
              else if day < 1 ∨ daysIn month year < day then none
              else some (Date year month day 0 0)
  | _ => none

/-- The call `time.Parse("15:04", value)`: one- or two-digit hour below 24,
two-digit minute below 60, nothing after; the date is January 1 of year 0. -/
def parseClock (value : List Char) : Option Time :=
  match getnum value false with
  | none => none
  | some (hour, v1) =>
    match skipChar ':' v1 with
    | none => none
    | some v2 =>
      match getnum v2 true with
      | none => none
      | some (min, v3) =>
        if 24 ≤ hour then none
        else if 60 ≤ min then none
        else if !v3.isEmpty then none
        else some (Date 0 1 1 hour min)

/-! ## The service -/

/-- The struct `Item`. -/
structure Item where
  ShortDescription : String
  Price : String
deriving DecidableEq, Repr

/-- The struct `Receipt`. -/
structure Receipt where
  Retailer : String
  PurchaseDate : String
  PurchaseTime : String
  Items : List Item
  Total : String
deriving DecidableEq, Repr

/-- The struct `ReceiptPoints`. -/
structure ReceiptPoints where
  ID : String
  Points : Int
deriving DecidableEq, Repr

/-- The store `var pointsForReceipt []ReceiptPoints`. -/
abbrev Store := List ReceiptPoints

/-- The constant `100` of `totalCents * 100` as a float64. -/
def const100 : Float64 := Float64.fin (100 * (unit : Int))

/-- The constant `0.2` of `price * 0.2`, rounded to float64. -/
def const0_2 : Float64 := roundToFloat64 false (2 * unit) 10

/-- Line 71: one point per match of `[a-zA-Z0-9]` in the retailer name. -/
def retailerRule (receipt : Receipt) (points : Int) : Int :=
  add64 points (FindAllString alnumClass receipt.Retailer.toList).length

/-- Lines 73-76: 50 points when the total equals its integer truncation. -/
def roundDollarRule (oor : OutOfRange) (receipt : Receipt) (points : Int) : Int :=
  match ParseFloat receipt.Total with
  | .ok totalFloat =>
    if totalFloat.eq (ofInt (toInt oor totalFloat)) then add64 points 50 else points
  | .error _ => points

/-- Lines 78-86: 25 points when `int(total * 100)` leaves remainder 0 modulo 25. -/
def quarterRule (oor : OutOfRange) (receipt : Receipt) (points : Int) : Int :=
  match ParseFloat receipt.Total with
  | .ok totalCents =>
    let totalCentsInt := toInt oor (totalCents.mul const100)
    if Int.tmod totalCentsInt 25 = 0 then add64 points 25 else points
  | .error _ => points

/-- Lines 88-89: 5 points for every two items. -/
def pairRule (receipt : Receipt) (points : Int) : Int :=
  let itemCount : Int := receipt.Items.length
  add64 points ((itemCount / 2) * 5)

/-- Lines 92-96: the body of the loop over the items. -/
def descriptionStep (oor : OutOfRange) (points : Int) (item : Item) : Int :=
  let trimmedLength := len (TrimSpace item.ShortDescription.toList)
  match ParseFloat item.Price with
  | .ok price =>
    if trimmedLength % 3 = 0 then add64 points (toInt oor (Ceil (price.mul const0_2)))
    else points
  | .error _ => points

/-- Lines 91-97: the loop over the items. -/
def descriptionRule (oor : OutOfRange) (receipt : Receipt) (points : Int) : Int :=
  receipt.Items.foldl (descriptionStep oor) points

/-- Lines 99-102: 6 points when the day of the purchase date is odd. -/
def dayRule (receipt : Receipt) (points : Int) : Int :=
  match parseDate receipt.PurchaseDate.toList with
  | some purchaseDate => if purchaseDate.Day % 2 = 1 then add64 points 6 else points
  | none => points

/-- Lines 104-107: 10 points when the purchase time is after 14:00 and before
16:00. -/
def timeRule (receipt : Receipt) (points : Int) : Int :=
  match parseClock receipt.PurchaseTime.toList with
  | some purchaseTime =>
    if purchaseTime.After (Date 0 1 1 14 0) && purchaseTime.Before (Date 0 1 1 16 0) then
      add64 points 10
    else points
  | none => points

/-- The function `CalculatePoints`. -/
def CalculatePoints (oor : OutOfRange) (receipt : Receipt) : Int :=
  let points := 0
  let points := retailerRule receipt points
  let points := roundDollarRule oor receipt points
  let points := quarterRule oor receipt points
  let points := pairRule receipt points
  let points := descriptionRule oor receipt points
  let points := dayRule receipt points
  let points := timeRule receipt points
  points

/-- The function `LookupPointsByReceiptID`: the points of the first entry with
the given ID, or -1. -/
def LookupPointsByReceiptID (pointsForReceipt : Store) (receiptID : String) : Int :=
  match pointsForReceipt with
  | [] => -1
  | receipt :: rest =>
    if receipt.ID = receiptID then receipt.Points
    else LookupPointsByReceiptID rest receiptID

/-- What a handler wrote: the status code and the JSON body. -/
inductive Response where
  | PointsScored (status : Nat) (points : Int)
  | ErrorResponse (status : Nat) (message : String)
deriving DecidableEq, Repr

/-- The handler `GetPointsForReceipt`, for the path variable `id`. -/
def GetPointsForReceipt (pointsForReceipt : Store) (receiptID : String) : Response :=
  let points := LookupPointsByReceiptID pointsForReceipt receiptID
  if points ≥ 0 then Response.PointsScored 200 points
  else Response.ErrorResponse 404 ("Receipt with ID " ++ receiptID ++ " not found")

/-- Outcome of `ProcessReceipt`: the store afterwards, the message passed to
`http.Error` if the body did not decode, and the `id` of the response. -/
structure Processed where
  pointsForReceipt : Store
  badRequest : Option String
  ID : String
deriving DecidableEq, Repr

/-- The handler `ProcessReceipt`. `receipt` is the variable after
`Decode(&receipt)`, `err` the decoder's error if any, `id` the string of
`uuid.New()`. There is no `return` after `http.Error`. -/
def ProcessReceipt (oor : OutOfRange) (pointsForReceipt : Store) (receipt : Receipt)
    (err : Option String) (id : String) : Processed :=
  let points := CalculatePoints oor receipt
  { pointsForReceipt := pointsForReceipt ++ [{ ID := id, Points := points }],
    badRequest := err,
    ID := id }

/-! ## Panics -/

/-- A run-time panic of `CalculatePoints`. Its only operation that can panic
is `regexp.MustCompile`; conversions, the remainders by the constants 25, 3
and 2 and the division by 2 cannot. -/
inductive Panic where
  | regexpCompile (pattern : String)
deriving DecidableEq, Repr

/-- The items of a bracket expression up to and including the closing `]`:
single characters and ranges `lo-hi` (a range with `lo > hi` is an error).
Escapes and nested classes are outside the modelled fragment. -/
def parseClassItems : List Char → Option CharClass
  | [] => none
  | c :: '-' :: hi :: rest2 =>
    if c = ']' ∨ c = '\\' ∨ c = '[' then none
    else if hi = ']' ∨ hi = '\\' ∨ hi = '[' then
      (parseClassItems ('-' :: hi :: rest2)).map ((c, c) :: ·)
    else if c ≤ hi then (parseClassItems rest2).map ((c, hi) :: ·)
    else none
  | c :: rest =>
    if c = ']' then (if rest.isEmpty then some [] else none)
    else if c = '\\' ∨ c = '[' then none
    else (parseClassItems rest).map ((c, c) :: ·)

/-- The call `regexp.MustCompile(str)` for a pattern that is one bracket
expression: the character class, or a panic when the pattern does not
parse. -/
def MustCompile (str : String) : Except Panic CharClass :=
  match str.toList with
  | '[' :: body =>
    (match parseClassItems body with
      | some cls => .ok cls
      | none => .error (.regexpCompile str))
  | _ => .error (.regexpCompile str)

/-- The function `CalculatePoints` with the panic of `MustCompile` made
explicit. -/
def CalculatePointsChecked (oor : OutOfRange) (receipt : Receipt) : Except Panic Int :=
  match MustCompile "[a-zA-Z0-9]" with
  | .error e => .error e
  | .ok re =>
    let points := 0
    let points := add64 points (FindAllString re receipt.Retailer.toList).length
    let points := roundDollarRule oor receipt points
    let points := quarterRule oor receipt points
    let points := pairRule receipt points
    let points := descriptionRule oor receipt points
    let points := dayRule receipt points
    let points := timeRule receipt points
    .ok points

/-! ## Specification-side definitions -/

/-- The int64 range. -/
def IsInt64 (x : Int) : Prop := -(2 ^ 63) ≤ x ∧ x < 2 ^ 63

/-- A magnitude (in units of `2^-1074`) with at most 53 significant bits. -/
def Representable (k : Nat) : Prop :=
  k < 2 ^ 53 ∨ ∃ m s, 2 ^ 52 ≤ m ∧ m < 2 ^ 53 ∧ k = m * 2 ^ s

/-- Whether a float64 is a whole number (zero cents). -/
def Float64.isWhole : Float64 → Bool
  | .fin k => decide ((unit : Int) ∣ k)
  | _ => false

/-- Whether a float64 is finite with `-2^63 <= v < 2^63`, the values whose
truncation fits in int64. -/
def Float64.inInt64 : Float64 → Bool
  | .fin k => decide (-(2 ^ 63) * (unit : Int) ≤ k ∧ k < 2 ^ 63 * (unit : Int))
  | _ => false

/-- Whether an item takes part in the description-length bonus: its price
parses and its trimmed description has a length divisible by 3. -/
def qualifies (item : Item) : Bool :=
  (match ParseFloat item.Price with
    | .ok _ => true
    | .error _ => false)
  && decide (len (TrimSpace item.ShortDescription.toList) % 3 = 0)

/-- The mathematical ceiling of a finite float64 (0 for NaN and the
infinities, which have none). -/
def Float64.ceiling : Float64 → Int
  | .fin k => ⌈(k : ℚ) / (unit : ℚ)⌉
  | _ => 0

/-- The amount `ceiling(price * 0.2)` for an item, the product being the
float64 product. -/
def ceilingFifth (item : Item) : Int :=
  match ParseFloat item.Price with
  | .ok price => (price.mul const0_2).ceiling
  | .error _ => 0

/-- The description-length bonus as a sum over the qualifying items. -/
def descriptionBonus (items : List Item) : Int :=
  ((items.filter qualifies).map ceilingFifth).sum

/-- A decidable check that, when the price of `item` parses, the float64
product `price * 0.2` is finite and its ceiling lies in the int64 range. -/
def bonusFitsCheck (item : Item) : Bool :=
  match ParseFloat item.Price with
  | .ok price =>
    (match price.mul const0_2 with
      | .fin k => decide (-(2 ^ 63) ≤ -((-k) / (unit : Int)) ∧ -((-k) / (unit : Int)) < 2 ^ 63)
      | _ => false)
  | .error _ => true

/-- A step on the running total that adds a fixed amount (in int64
arithmetic) and keeps the total in the int64 range. -/
def Additive (f : Int → Int) : Prop :=
  ∀ p, IsInt64 p → f p = add64 p (f 0) ∧ IsInt64 (f p)

/-- Whether `strconv.ParseFloat(s, 64)` returns a nil error. -/
def parses (s : String) : Bool :=
  match ParseFloat s with
  | .ok _ => true
  | .error _ => false

/-- Whether the trimmed short description has a byte length divisible by 3. -/
def lengthDivisibleBy3 (item : Item) : Bool :=
  decide (len (TrimSpace item.ShortDescription.toList) % 3 = 0)

/-- A decidable check on a total: it parses to a finite value, and both its
truncation and the truncation of the float64 product with 100 fit in int64,
so that neither total rule converts out of range. -/
def totalFitsCheck (total : String) : Bool :=
  match ParseFloat total with
  | .ok (.fin k) =>
    decide (-(2 ^ 63) ≤ Int.tdiv k (unit : Int) ∧ Int.tdiv k (unit : Int) < 2 ^ 63)
    && (match (Float64.fin k).mul const100 with
        | .fin k2 =>
          decide (-(2 ^ 63) ≤ Int.tdiv k2 (unit : Int) ∧ Int.tdiv k2 (unit : Int) < 2 ^ 63)
        | _ => false)
  | _ => false

/-- The integer ceiling of the float64 product `price * 0.2`, computed with
integer division (0 when the price does not parse or the product is not
finite). -/
def bonusOf (price : String) : Int :=
  match ParseFloat price with
  | .ok p =>
    (match p.mul const0_2 with
      | .fin k => -((-k) / (unit : Int))
      | _ => 0)
  | .error _ => 0

/-! ## Integer wrap-around -/

theorem wrap64_isInt64 (x : Int) : IsInt64 (wrap64 x) := by
  unfold IsInt64 wrap64; omega

theorem wrap64_of_isInt64 {x : Int} (h : IsInt64 x) : wrap64 x = x := by
  unfold IsInt64 at h; unfold wrap64; omega

theorem wrap64_add_left (x y : Int) : wrap64 (wrap64 x + y) = wrap64 (x + y) := by
  unfold wrap64; omega

theorem add64_wrap64 (a b : Int) : add64 (wrap64 a) b = wrap64 (a + b) := by
  unfold add64 wrap64; omega

theorem add64_zero {p : Int} (h : IsInt64 p) : add64 p 0 = p := by
  unfold IsInt64 at h; unfold add64 wrap64; omega

theorem add64_isInt64 (a b : Int) : IsInt64 (add64 a b) := wrap64_isInt64 _

/-! ## Retailer rule -/

theorem alnumClass_matches (c : Char) : alnumClass.matches c = c.isAlphanum := by
  simp only [CharClass.matches, alnumClass, Char.isAlphanum, Char.isAlpha, Char.isUpper,
    Char.isLower, Char.isDigit, Char.le_def, List.any_cons, List.any_nil, Bool.or_false,
    Char.reduceVal, ge_iff_le]
  cases decide (97 ≤ c.val) <;> cases decide (c.val ≤ 122) <;> cases decide (65 ≤ c.val) <;>
    cases decide (c.val ≤ 90) <;> cases decide (48 ≤ c.val) <;> cases decide (c.val ≤ 57) <;> rfl

theorem FindAllString_length (cls : CharClass) (s : List Char) :
    (FindAllString cls s).length = s.countP cls.matches := by
  induction s with
  | nil => rfl
  | cons c cs ih =>
    by_cases h : cls.matches c = true
    · simp [FindAllString, h, ih]
    · simp [FindAllString, h, ih]

/-- C6. The retailer rule adds exactly the number of characters of the retailer
name that are ASCII letters or digits (`Char.isAlphanum`); every other
character adds nothing. -/
theorem retailerRule_spec (receipt : Receipt) (points : Int) :
    retailerRule receipt points
      = add64 points ((receipt.Retailer.toList.countP Char.isAlphanum : Nat) : Int) := by
  unfold retailerRule
  rw [FindAllString_length]
  congr 2
  exact List.countP_congr (fun c _ => by rw [alnumClass_matches])

/-! ## Item-pair rule -/

/-- C9. The item-pair rule adds exactly `5 * floor(n / 2)` for a receipt with
`n` items, whatever the items are. -/
theorem pairRule_spec (receipt : Receipt) (points : Int) :
    pairRule receipt points = add64 points (5 * ((receipt.Items.length / 2 : Nat) : Int)) := by
  unfold pairRule
  simp only
  congr 1
  omega

/-! ## Date and time rules -/

theorem parseClock_some {s : List Char} {t : Time} (h : parseClock s = some t) :
    ∃ hh mm, hh < 24 ∧ mm < 60 ∧ t = Date 0 1 1 hh mm := by
  unfold parseClock at h
  split at h
  · simp at h
  · rename_i hour v1 _
    split at h
    · simp at h
    · split at h
      · simp at h
      · rename_i mn v3 _
        split_ifs at h with h1 h2 h3
        simp only [Option.some.injEq] at h
        exact ⟨hour, mn, by omega, by omega, h.symm⟩

theorem parseDate_some {s : List Char} {t : Time} (h : parseDate s = some t) :
    1 ≤ t.month ∧ t.month ≤ 12 ∧ 1 ≤ t.day ∧ t.day ≤ daysIn t.month t.year := by
  unfold parseDate at h
  split at h
  · split_ifs at h
    split at h
    · simp at h
    · split at h
      · simp at h
      · split at h
        · simp at h
        · split at h
          · simp at h
          · split_ifs at h with h1 h2
            simp only at h
            split_ifs at h with h3
            simp only [Option.some.injEq] at h
            subst h
            simp only [Date]
            omega
  · simp at h

/-- C5. For a purchase time that parses (`HH:MM`, hour below 24, minute below
60), the afternoon rule adds 10 exactly when the time is strictly after 14:00
and strictly before 16:00, that is from 14:01 to 15:59, and adds nothing
otherwise. -/
theorem timeRule_spec (receipt : Receipt) (points : Int) (t : Time)
    (h : parseClock receipt.PurchaseTime.toList = some t) :
    t.hour < 24 ∧ t.min < 60 ∧
    timeRule receipt points
      = (if (t.hour = 14 ∧ 1 ≤ t.min) ∨ t.hour = 15 then add64 points 10 else points) := by
  obtain ⟨hh, mm, h1, h2, rfl⟩ := parseClock_some h
  refine ⟨h1, h2, ?_⟩
  unfold timeRule
  rw [h]
  simp only [Time.After, Time.Before, Time.key, Date, Bool.and_eq_true, decide_eq_true_eq]
  by_cases hc : (hh = 14 ∧ 1 ≤ mm) ∨ hh = 15
  · rw [if_pos hc, if_pos (by omega)]
  · rw [if_neg hc, if_neg (by omega)]

/-- The afternoon rule at 14:01, where the window opens. -/
theorem timeRule_spec_witness :
    (1 : Nat) < 24 ∧
    timeRule ⟨"", "", "14:01", [], ""⟩ 0 = add64 0 10 :=
  ⟨by decide,
   (timeRule_spec ⟨"", "", "14:01", [], ""⟩ 0 (Date 0 1 1 14 1) (by decide)).2.2⟩

/-- C8. For a purchase date that parses (a valid `YYYY-MM-DD` calendar date),
the odd-day rule adds 6 exactly when the day of the month is odd, and nothing
when it is even. -/
theorem dayRule_spec (receipt : Receipt) (points : Int) (t : Time)
    (h : parseDate receipt.PurchaseDate.toList = some t) :
    (1 ≤ t.day ∧ t.day ≤ daysIn t.month t.year) ∧
    dayRule receipt points = (if Odd t.day then add64 points 6 else points) := by
  refine ⟨(parseDate_some h).2.2, ?_⟩
  unfold dayRule
  rw [h]
  simp only [Time.Day, Nat.odd_iff]

/-- The odd-day rule on the first of January 2022. -/
theorem dayRule_spec_witness :
    dayRule ⟨"", "2022-01-01", "", [], ""⟩ 0 = (if Odd 1 then add64 0 6 else 0) :=
  (dayRule_spec ⟨"", "2022-01-01", "", [], ""⟩ 0 (Date 2022 1 1 0 0) (by decide)).2

/-! ## float64 rounding -/

theorem excessBits_spec (fuel q : Nat) (h : q < 2 ^ (53 + fuel)) :
    q / 2 ^ excessBits fuel q < 2 ^ 53 ∧
      (0 < excessBits fuel q → 2 ^ 52 ≤ q / 2 ^ excessBits fuel q) := by
  induction fuel generalizing q with
  | zero => simp [excessBits]; simpa using h
  | succ f ih =>
    unfold excessBits
    split_ifs with hq
    · exact ⟨by simpa using hq, fun h0 => absurd h0 (lt_irrefl 0)⟩
    · have h2 : q / 2 < 2 ^ (53 + f) := by
        rw [Nat.div_lt_iff_lt_mul (by norm_num)]
        calc q < 2 ^ (53 + (f + 1)) := h
          _ = 2 ^ (53 + f) * 2 := by rw [← Nat.add_assoc, Nat.pow_succ]
      obtain ⟨a, b⟩ := ih (q / 2) h2
      have e : q / 2 ^ (excessBits f (q / 2) + 1) = q / 2 / 2 ^ excessBits f (q / 2) := by
        rw [Nat.pow_succ, Nat.mul_comm, Nat.div_div_eq_div_mul]
      rw [e]
      refine ⟨a, fun _ => ?_⟩
      by_cases hs : 0 < excessBits f (q / 2)
      · exact b hs
      · have : excessBits f (q / 2) = 0 := by omega
        rw [this]
        simp only [pow_zero, Nat.div_one]
        have : 2 ^ 53 = 2 * 2 ^ 52 := by norm_num
        omega

theorem excessBits_small (fuel q : Nat) (h : q < 2 ^ 53) : excessBits fuel q = 0 := by
  cases fuel with
  | zero => rfl
  | succ f => unfold excessBits; rw [if_pos h]

theorem excessBits_normal (s : Nat) : ∀ (fuel m : Nat), 2 ^ 52 ≤ m → m < 2 ^ 53 → s ≤ fuel →
    excessBits fuel (m * 2 ^ s) = s := by
  induction s with
  | zero => intro fuel m _ h2 _; simpa using excessBits_small fuel m h2
  | succ s ih =>
    intro fuel m h1 h2 hf
    obtain ⟨f, rfl⟩ : ∃ f, fuel = f + 1 := ⟨fuel - 1, by omega⟩
    unfold excessBits
    have hbig : ¬ m * 2 ^ (s + 1) < 2 ^ 53 := by
      have : 2 ^ 53 = 2 ^ 52 * 2 := by norm_num
      have : 2 ^ 52 * 2 ≤ m * 2 ^ (s + 1) := by
        apply Nat.mul_le_mul h1
        calc 2 = 2 ^ 1 := by norm_num
          _ ≤ 2 ^ (s + 1) := Nat.pow_le_pow_right (by norm_num) (by omega)
      omega
    rw [if_neg hbig]
    have : m * 2 ^ (s + 1) / 2 = m * 2 ^ s := by
      rw [Nat.pow_succ, ← Nat.mul_assoc, Nat.mul_div_cancel _ (by norm_num)]
    rw [this, ih f m h1 h2 (by omega)]


theorem lt_two_pow_add (q : Nat) : q < 2 ^ (53 + q) :=
  lt_of_lt_of_le (Nat.lt_two_pow q) (Nat.pow_le_pow_right (by norm_num) (by omega))

theorem roundNearestEven_representable (n d : Nat) : Representable (roundNearestEven n d) := by
  unfold roundNearestEven
  simp only
  obtain ⟨a, b⟩ := excessBits_spec (n / d) (n / d) (lt_two_pow_add _)
  generalize excessBits (n / d) (n / d) = s at a b ⊢
  rw [Nat.div_div_eq_div_mul] at a b
  generalize n / (d * 2 ^ s) = m at a b ⊢
  generalize n % (d * 2 ^ s) = r
  have key : ∀ m1, (m1 = m ∨ m1 = m + 1) → Representable (m1 * 2 ^ s) := by
    intro m1 hm
    by_cases h53 : m1 < 2 ^ 53
    · by_cases hs : 0 < s
      · exact Or.inr ⟨m1, s, by have := b hs; omega, h53, rfl⟩
      · have : s = 0 := by omega
        subst this
        exact Or.inl (by simpa using h53)
    · have hm1 : m1 = 2 ^ 52 * 2 := by
        have : 2 ^ 53 = 2 ^ 52 * 2 := by norm_num
        omega
      refine Or.inr ⟨2 ^ 52, s + 1, le_refl _, by norm_num, ?_⟩
      rw [hm1]; ring
  split_ifs
  · exact key m (Or.inl rfl)
  · exact key _ (Or.inr rfl)
  · exact key m (Or.inl rfl)
  · exact key _ (Or.inr rfl)

theorem roundNearestEven_exact {k : Nat} (h : Representable k) : roundNearestEven k 1 = k := by
  unfold roundNearestEven
  simp only [Nat.div_one, Nat.one_mul]
  rcases h with h | ⟨m, s, h1, h2, rfl⟩
  · rw [excessBits_small _ _ h]
    simp [Nat.mod_one]
  · have hs : s ≤ m * 2 ^ s := by
      calc s ≤ 2 ^ s := le_of_lt (Nat.lt_two_pow s)
        _ ≤ m * 2 ^ s := Nat.le_mul_of_pos_left _ (by omega)
    rw [excessBits_normal s _ m h1 h2 hs]
    have hp : 0 < 2 ^ s := Nat.two_pow_pos s
    rw [Nat.mul_mod_left, Nat.mul_div_cancel _ hp]
    simp [hp]


theorem roundNearestEven_unit_dvd (a : Nat) : unit ∣ roundNearestEven (a * unit) 1 := by
  unfold roundNearestEven
  simp only [Nat.div_one, Nat.one_mul]
  generalize excessBits (a * unit) (a * unit) = s
  by_cases hs : 1074 ≤ s
  · exact Dvd.dvd.mul_left (pow_dvd_pow 2 hs) _
  · have hu : a * unit = (a * 2 ^ (1074 - s)) * 2 ^ s := by
      rw [Nat.mul_assoc, ← pow_add, unit]
      congr 2; omega
    have hp : 0 < 2 ^ s := Nat.two_pow_pos s
    rw [hu, Nat.mul_mod_left, Nat.mul_div_cancel _ hp, if_pos (by omega), ← hu]
    exact Nat.dvd_mul_left _ _

theorem roundNearestEven_le (n : Nat) : roundNearestEven n 1 ≤ 2 * n := by
  unfold roundNearestEven
  simp only [Nat.div_one, Nat.one_mul]
  obtain ⟨_, b⟩ := excessBits_spec n n (lt_two_pow_add _)
  generalize excessBits n n = s at b ⊢
  have hm : n / 2 ^ s * 2 ^ s ≤ n := Nat.div_mul_le_self n (2 ^ s)
  by_cases hs : 0 < s
  · have h52 := b hs
    have h1 : (n / 2 ^ s + 1) * 2 ^ s ≤ 2 * n := by
      calc (n / 2 ^ s + 1) * 2 ^ s ≤ (2 * (n / 2 ^ s)) * 2 ^ s :=
            Nat.mul_le_mul_right _ (by omega)
        _ = 2 * (n / 2 ^ s * 2 ^ s) := by ring
        _ ≤ 2 * n := Nat.mul_le_mul_left _ hm
    have h0 : n / 2 ^ s * 2 ^ s ≤ 2 * n := by omega
    split_ifs <;> assumption
  · have : s = 0 := by omega
    subst this
    simp only [pow_zero, Nat.mod_one, Nat.div_one, Nat.mul_zero, Nat.lt_one_iff, if_true,
      Nat.mul_one]
    omega

theorem signed_natAbs (k : Int) : signed (decide (k < 0)) k.natAbs = k := by
  unfold signed
  by_cases h : k < 0
  · simp only [h, decide_True, if_true]; omega
  · simp only [h, decide_False]; simp; omega

theorem natAbs_signed (neg : Bool) (k : Nat) : (signed neg k).natAbs = k := by
  cases neg <;> simp [signed]

theorem tdiv_bounds {k u lo hi : Int} (hu : 0 < u) (hlo : lo ≤ 0) (hhi : 0 < hi)
    (h1 : lo * u ≤ k) (h2 : k < hi * u) : lo ≤ Int.tdiv k u ∧ Int.tdiv k u < hi := by
  by_cases hk : 0 ≤ k
  · rw [Int.tdiv_eq_ediv hk (le_of_lt hu)]
    exact ⟨le_trans hlo (Int.ediv_nonneg hk (le_of_lt hu)), Int.ediv_lt_of_lt_mul hu h2⟩
  · have hk2 : 0 ≤ -k := by omega
    have e : Int.tdiv k u = -((-k) / u) := by
      rw [← Int.tdiv_eq_ediv hk2 (le_of_lt hu), Int.neg_tdiv, neg_neg]
    rw [e]
    have h3 : (-k) / u ≤ -lo := by
      apply Int.ediv_le_of_le_mul hu
      have : -lo * u = -(lo * u) := by ring
      omega
    have h4 : 0 ≤ (-k) / u := Int.ediv_nonneg hk2 (le_of_lt hu)
    omega

/-- The conversion of an `int` is always finite and a whole number. -/
theorem ofInt_fin {i : Int} (h : IsInt64 i) :
    ∃ k : Nat, ofInt i = Float64.fin (signed (decide (i < 0)) k) ∧ unit ∣ k
      ∧ k = roundNearestEven (i.natAbs * unit) 1 := by
  refine ⟨roundNearestEven (i.natAbs * unit) 1, ?_, roundNearestEven_unit_dvd _, rfl⟩
  unfold ofInt roundToFloat64
  simp only
  rw [if_neg]
  have h1 := roundNearestEven_le (i.natAbs * unit)
  have h2 : i.natAbs ≤ 2 ^ 63 := by unfold IsInt64 at h; omega
  have h3 : 2 * (2 ^ 63 * unit) ≤ maxFinite := by unfold unit maxFinite; decide!
  have h4 : i.natAbs * unit ≤ 2 ^ 63 * unit := Nat.mul_le_mul_right _ h2
  omega


theorem special_not_fin {s : List Char} {v : Float64} {n : Nat} (h : special s = some (v, n)) :
    v = Float64.nan ∨ ∃ b, v = Float64.inf b := by
  have hinf : ∀ neg nsign s, specialInf neg nsign s = some (v, n) → ∃ b, v = Float64.inf b := by
    intro neg nsign s hs
    unfold specialInf at hs
    simp only at hs
    split_ifs at hs
    all_goals
      simp only [Option.some.injEq, Prod.mk.injEq] at hs
      exact ⟨neg, hs.1.symm⟩
  unfold special at h
  split at h
  · simp at h
  · split_ifs at h
    · exact Or.inr (hinf _ _ _ h)
    · exact Or.inr (hinf _ _ _ h)
    · simp only [Option.some.injEq, Prod.mk.injEq] at h
      exact Or.inl h.1.symm

/-- Every finite value returned by `ParseFloat` is a float64: its magnitude has
at most 53 significant bits. -/
theorem ParseFloat_representable {s : String} {k : Int}
    (h : ParseFloat s = .ok (Float64.fin k)) : Representable k.natAbs := by
  unfold ParseFloat at h
  simp only at h
  split at h
  · rename_i v n hsp
    split_ifs at h
    simp only [Except.ok.injEq] at h
    rcases special_not_fin hsp with h1 | ⟨b, h1⟩ <;> rw [h1] at h <;> simp at h
  · split at h
    · simp at h
    · rename_i r _
      split_ifs at h
      unfold convert at h
      simp only at h
      split_ifs at h
      all_goals
        simp only [Except.ok.injEq, Float64.fin.injEq] at h
        rw [← h, natAbs_signed]
        exact roundNearestEven_representable _ _

/-- The whole-number test `x == float64(int(x))`: for NaN, an infinity, or a
float64 `v` with `-2^63 <= v < 2^63`, it holds exactly when `v` is a whole
number, whatever the platform does out of range. -/
theorem eq_ofInt_toInt (oor : OutOfRange) (v : Float64)
    (hrep : ∀ k, v = Float64.fin k → Representable k.natAbs)
    (hr : ∀ k, v = Float64.fin k → -(2 ^ 63) * (unit : Int) ≤ k ∧ k < 2 ^ 63 * (unit : Int)) :
    v.eq (ofInt (toInt oor v)) = v.isWhole := by
  have hu : (0 : Int) < unit := by unfold unit; positivity
  cases v with
  | nan => simp [Float64.eq, Float64.isWhole]
  | inf b =>
    obtain ⟨k, hk, _⟩ := ofInt_fin (wrap64_isInt64 (oor (Float64.inf b)))
    simp [toInt, hk, Float64.eq, Float64.isWhole]
  | fin k =>
    obtain ⟨h1, h2⟩ := hr k rfl
    have hb := tdiv_bounds hu (by norm_num) (by norm_num) h1 h2
    have ht : toInt oor (Float64.fin k) = Int.tdiv k unit := by
      unfold toInt
      simp only
      rw [if_pos hb]
    rw [ht]
    obtain ⟨m, hm, hdvd, hm2⟩ := ofInt_fin (show IsInt64 (Int.tdiv k unit) from hb)
    rw [hm]
    simp only [Float64.eq, Float64.isWhole]
    by_cases hw : (unit : Int) ∣ k
    · have hk : Int.tdiv k unit * unit = k := Int.tdiv_mul_cancel hw
      have habs : (Int.tdiv k unit).natAbs * unit = k.natAbs := by
        have := congrArg Int.natAbs hk
        rwa [Int.natAbs_mul, Int.natAbs_ofNat] at this
      rw [habs, roundNearestEven_exact (hrep k rfl)] at hm2
      have hsign : decide (Int.tdiv k unit < 0) = decide (k < 0) := by
        apply decide_eq_decide.2
        constructor
        · intro hlt
          have := mul_neg_of_neg_of_pos hlt hu
          omega
        · intro hlt
          by_contra hge
          have : 0 ≤ Int.tdiv k unit * unit := Int.mul_nonneg (by omega) (le_of_lt hu)
          omega
      rw [hm2, hsign, signed_natAbs]
      simp [hw]
    · have hne : k ≠ signed (decide (Int.tdiv k unit < 0)) m := by
        intro he
        apply hw
        rw [he]
        unfold signed
        split_ifs
        · exact (Int.dvd_neg).2 (Int.natCast_dvd_natCast.2 hdvd)
        · exact Int.natCast_dvd_natCast.2 hdvd
      simp [hw, hne]

theorem roundNearestEven_le_pow (n e : Nat) (h : n ≤ 2 ^ e) : roundNearestEven n 1 ≤ 2 ^ e := by
  unfold roundNearestEven
  simp only [Nat.div_one, Nat.one_mul]
  obtain ⟨_, b⟩ := excessBits_spec n n (lt_two_pow_add _)
  generalize excessBits n n = s at b ⊢
  have hp : 0 < 2 ^ s := Nat.two_pow_pos s
  have hdm : n / 2 ^ s * 2 ^ s + n % 2 ^ s = n := Nat.div_add_mod' n (2 ^ s)
  have hlt : n % 2 ^ s < 2 ^ s := Nat.mod_lt _ hp
  generalize n / 2 ^ s = m at b hdm ⊢
  generalize n % 2 ^ s = r at hdm hlt ⊢
  have hsame : m * 2 ^ s ≤ 2 ^ e := by omega
  have hup : 0 < r → (m + 1) * 2 ^ s ≤ 2 ^ e := by
    intro hr
    have hm : 1 ≤ m := by
      by_contra hm0
      have hm0 : m = 0 := by omega
      by_cases hs : 0 < s
      · have := b hs
        rw [hm0] at this
        exact absurd this (by norm_num)
      · have hs0 : s = 0 := by omega
        rw [hs0] at hlt
        simp at hlt
        omega
    have hse : s ≤ e := by
      have h1 : 2 ^ s ≤ 2 ^ e := by
        calc 2 ^ s ≤ m * 2 ^ s := Nat.le_mul_of_pos_left _ hm
          _ ≤ 2 ^ e := hsame
      exact (Nat.pow_le_pow_iff_right (by norm_num)).1 h1
    have he : 2 ^ e = 2 ^ (e - s) * 2 ^ s := by
      rw [← pow_add]; congr 1; omega
    have hmlt : m < 2 ^ (e - s) := by
      have : m * 2 ^ s < 2 ^ (e - s) * 2 ^ s := by omega
      exact Nat.lt_of_mul_lt_mul_right this
    rw [he]
    exact Nat.mul_le_mul_right _ hmlt
  split_ifs with c1 c2 c3
  · exact hsame
  · exact hup (by omega)
  · exact hsame
  · exact hup (by omega)

theorem toInt_isInt64 (oor : OutOfRange) (x : Float64) : IsInt64 (toInt oor x) := by
  unfold toInt
  cases x with
  | nan => exact wrap64_isInt64 _
  | inf b => exact wrap64_isInt64 _
  | fin k =>
    simp only
    split_ifs with h
    · exact h
    · exact wrap64_isInt64 _

/-- Beyond the int64 range the whole-number test fails on every platform:
`float64` of an `int` has magnitude at most `2^63`. -/
theorem eq_ofInt_toInt_beyond (oor : OutOfRange) (k : Int)
    (h : 2 ^ 63 * unit < k.natAbs) :
    (Float64.fin k).eq (ofInt (toInt oor (Float64.fin k))) = false := by
  have hi := toInt_isInt64 oor (Float64.fin k)
  obtain ⟨m, hm, _, hm2⟩ := ofInt_fin hi
  rw [hm]
  simp only [Float64.eq, decide_eq_false_iff_not]
  intro he
  have hle : (toInt oor (Float64.fin k)).natAbs ≤ 2 ^ 63 := by
    unfold IsInt64 at hi; omega
  have hb : (toInt oor (Float64.fin k)).natAbs * unit ≤ 2 ^ 1137 := by
    calc (toInt oor (Float64.fin k)).natAbs * unit ≤ 2 ^ 63 * unit :=
          Nat.mul_le_mul_right _ hle
      _ = 2 ^ 1137 := by unfold unit; rw [← pow_add]
  have hm3 : m ≤ 2 ^ 1137 := by
    rw [hm2]
    exact roundNearestEven_le_pow _ _ hb
  have hk : k.natAbs = m := by
    rw [he, natAbs_signed]
  have h63 : 2 ^ 63 * unit = 2 ^ 1137 := by unfold unit; rw [← pow_add]
  omega


/-- C7, amended. Let `v` be the float64 that the total parses to, other than
exactly `2^63`. The round-dollar rule adds 50 exactly when `v` is a whole
number with `-2^63 <= v < 2^63`, and nothing otherwise; so NaN, the infinities
and whole numbers beyond the int64 range add nothing. This holds for every
platform choice of the out-of-range conversion. -/
theorem roundDollarRule_spec (oor : OutOfRange) (receipt : Receipt) (points : Int) (v : Float64)
    (h : ParseFloat receipt.Total = .ok v)
    (hv : v ≠ Float64.fin (2 ^ 63 * (unit : Int))) :
    roundDollarRule oor receipt points
      = (if v.isWhole && v.inInt64 then add64 points 50 else points) := by
  have hrep : ∀ k, v = Float64.fin k → Representable k.natAbs := by
    intro k hk
    rw [hk] at h
    exact ParseFloat_representable h
  unfold roundDollarRule
  rw [h]
  simp only
  by_cases hin : v.inInt64 = true
  · have hr : ∀ k, v = Float64.fin k →
        -(2 ^ 63) * (unit : Int) ≤ k ∧ k < 2 ^ 63 * (unit : Int) := by
      intro k hk
      rw [hk] at hin
      exact of_decide_eq_true hin
    rw [eq_ofInt_toInt oor v hrep hr, hin, Bool.and_true]
  · have hin2 : v.inInt64 = false := by simpa using hin
    rw [hin2, Bool.and_false]
    cases v with
    | nan =>
      rw [eq_ofInt_toInt oor Float64.nan hrep (fun k hk => by cases hk)]
      rfl
    | inf b =>
      rw [eq_ofInt_toInt oor (Float64.inf b) hrep (fun k hk => by cases hk)]
      rfl
    | fin k =>
      have hout : ¬ (-(2 ^ 63) * (unit : Int) ≤ k ∧ k < 2 ^ 63 * (unit : Int)) :=
        of_decide_eq_false hin2
      have hne : k ≠ 2 ^ 63 * (unit : Int) := fun hk => hv (by rw [hk])
      have hbig : 2 ^ 63 * unit < k.natAbs := by omega
      rw [eq_ofInt_toInt_beyond oor k hbig]

theorem Float64.ceiling_fin (k : Int) :
    (Float64.fin k).ceiling = -((-k) / (unit : Int)) := by
  show ⌈(k : ℚ) / (unit : ℚ)⌉ = _
  rw [show (k : ℚ) / (unit : ℚ) = -((((-k : ℤ)) : ℚ) / ((unit : ℕ) : ℚ)) by push_cast; ring,
    Int.ceil_neg, Rat.floor_intCast_div_natCast]

theorem toInt_Ceil_fin (oor : OutOfRange) (k : Int) (h : IsInt64 (Float64.fin k).ceiling) :
    toInt oor (Ceil (Float64.fin k)) = (Float64.fin k).ceiling := by
  have hu : (unit : Int) ≠ 0 := by unfold unit; positivity
  rw [Float64.ceiling_fin] at h ⊢
  unfold Ceil toInt
  simp only
  rw [Int.mul_tdiv_cancel _ hu]
  exact if_pos h

theorem descriptionStep_not_qualifies (oor : OutOfRange) (points : Int) (item : Item)
    (h : qualifies item = false) : descriptionStep oor points item = points := by
  unfold descriptionStep
  unfold qualifies at h
  split
  · rename_i price hp
    rw [hp] at h
    simp only [Bool.true_and, decide_eq_false_iff_not] at h
    simp only
    rw [if_neg h]
  · rfl

theorem descriptionStep_qualifies (oor : OutOfRange) (points : Int) (item : Item)
    (h : qualifies item = true)
    (hfin : ∀ price, ParseFloat item.Price = .ok price →
      ∃ k, price.mul const0_2 = Float64.fin k ∧ IsInt64 (Float64.fin k).ceiling) :
    descriptionStep oor points item = add64 points (ceilingFifth item) := by
  unfold descriptionStep ceilingFifth
  unfold qualifies at h
  split
  · rename_i price hp
    rw [hp] at h
    simp only [Bool.true_and, decide_eq_true_eq] at h
    obtain ⟨k, hk, hr⟩ := hfin price hp
    simp only
    rw [if_pos h, hk, toInt_Ceil_fin oor k hr]
  · rename_i e he
    rw [he] at h
    simp at h

/-- The loop over the items, started at an int64 total: when every qualifying
item has a finite product `price * 0.2` with ceiling in the int64 range, the
loop adds the description bonus of the list. -/
theorem descriptionStep_foldl (oor : OutOfRange) (items : List Item) (points : Int)
    (hp : IsInt64 points)
    (hfin : ∀ item ∈ items, qualifies item = true →
      ∀ price, ParseFloat item.Price = .ok price →
        ∃ k, price.mul const0_2 = Float64.fin k ∧ IsInt64 (Float64.fin k).ceiling) :
    items.foldl (descriptionStep oor) points = wrap64 (points + descriptionBonus items) := by
  unfold descriptionBonus
  induction items generalizing points with
  | nil => simp [wrap64_of_isInt64 hp]
  | cons item rest ih =>
    have hrest := fun it hit => hfin it (List.mem_cons_of_mem _ hit)
    rw [List.foldl_cons]
    by_cases hq : qualifies item = true
    · rw [descriptionStep_qualifies oor points item hq (hfin item (List.mem_cons_self _ _) hq),
        ih _ (add64_isInt64 _ _) hrest]
      simp only [List.filter_cons, hq, if_true, List.map_cons, List.sum_cons]
      unfold add64 wrap64
      omega
    · have hq2 : qualifies item = false := by simpa using hq
      rw [descriptionStep_not_qualifies oor points item hq2, ih _ hp hrest]
      simp [List.filter_cons, hq2]

/-- C4, amended. When, for every qualifying item, the float64 product
`price * 0.2` is finite and its ceiling lies in the int64 range, the
description-length rule adds (in int64 arithmetic) the sum over exactly the
qualifying items (price parses, trimmed description length divisible by 3) of
`ceiling(price * 0.2)`; the other items add nothing. -/
theorem descriptionRule_spec (oor : OutOfRange) (receipt : Receipt) (points : Int)
    (hp : IsInt64 points)
    (hfin : ∀ item ∈ receipt.Items, qualifies item = true →
      ∀ price, ParseFloat item.Price = .ok price →
        ∃ k, price.mul const0_2 = Float64.fin k ∧ IsInt64 (Float64.fin k).ceiling) :
    descriptionRule oor receipt points = wrap64 (points + descriptionBonus receipt.Items) := by
  unfold descriptionRule
  exact descriptionStep_foldl oor receipt.Items points hp hfin

theorem bonusFits_of_check {items : List Item}
    (h : ∀ item ∈ items, bonusFitsCheck item = true) :
    ∀ item ∈ items, qualifies item = true →
      ∀ price, ParseFloat item.Price = .ok price →
        ∃ k, price.mul const0_2 = Float64.fin k ∧ IsInt64 (Float64.fin k).ceiling := by
  intro item hmem _ price hprice
  have hc := h item hmem
  unfold bonusFitsCheck at hc
  rw [hprice] at hc
  simp only at hc
  split at hc
  · rename_i k hk
    refine ⟨k, hk, ?_⟩
    rw [Float64.ceiling_fin]
    unfold IsInt64
    exact of_decide_eq_true hc
  · simp at hc

/-- The description-length rule on two items, one of which qualifies. -/
theorem descriptionRule_spec_witness :
    IsInt64 0 ∧
    descriptionRule amd64 ⟨"", "", "", [⟨"Emils Cheese Pizza", "12.25"⟩, ⟨"Gatorade", "2.25"⟩], ""⟩ 0
      = wrap64 (0 + descriptionBonus [⟨"Emils Cheese Pizza", "12.25"⟩, ⟨"Gatorade", "2.25"⟩]) :=
  ⟨by unfold IsInt64; decide,
   descriptionRule_spec amd64
     ⟨"", "", "", [⟨"Emils Cheese Pizza", "12.25"⟩, ⟨"Gatorade", "2.25"⟩], ""⟩ 0
     (by unfold IsInt64; decide) (bonusFits_of_check (by decide!))⟩

/-- C4, as stated, fails for the price `1e20` (amd64): the float64 product
`1e20 * 0.2` is exactly `2 * 10^19`, so `ceiling(price * 0.2) = 2 * 10^19`, but
the rule adds `-2^63`, the out-of-range result of the conversion to `int`. -/
theorem descriptionRule_out_of_range :
    ParseFloat "1e20" = .ok (Float64.fin (10 ^ 20 * unit)) ∧
    (Float64.fin (10 ^ 20 * unit)).mul const0_2 = Float64.fin (2 * 10 ^ 19 * unit) ∧
    descriptionBonus [⟨"", "1e20"⟩] = 2 * 10 ^ 19 ∧
    descriptionRule amd64 ⟨"", "", "", [⟨"", "1e20"⟩], ""⟩ 0 = -(2 ^ 63) ∧
    descriptionRule amd64 ⟨"", "", "", [⟨"", "1e20"⟩], ""⟩ 0
      ≠ wrap64 (0 + descriptionBonus [⟨"", "1e20"⟩]) := by
  have h1 : ParseFloat "1e20" = .ok (Float64.fin (10 ^ 20 * unit)) := by decide!
  have h2 : (Float64.fin (10 ^ 20 * unit)).mul const0_2 = Float64.fin (2 * 10 ^ 19 * unit) := by
    decide!
  have hq : qualifies ⟨"", "1e20"⟩ = true := by decide!
  have h3 : descriptionBonus [⟨"", "1e20"⟩] = 2 * 10 ^ 19 := by
    simp only [descriptionBonus, List.filter_cons, hq, if_true, List.filter_nil, List.map_cons,
      List.map_nil, List.sum_cons, List.sum_nil, ceilingFifth, h1, h2, Float64.ceiling_fin]
    decide!
  have h4 : descriptionRule amd64 ⟨"", "", "", [⟨"", "1e20"⟩], ""⟩ 0 = -(2 ^ 63) := by decide!
  refine ⟨h1, h2, h3, h4, ?_⟩
  rw [h3, h4]
  decide!

/-- The round-dollar rule on the total `9.00`. -/
theorem roundDollarRule_spec_witness :
    ParseFloat "9.00" = .ok (Float64.fin (9 * unit)) ∧
    roundDollarRule amd64 ⟨"", "", "", [], "9.00"⟩ 0
      = (if (Float64.fin (9 * unit)).isWhole && (Float64.fin (9 * unit)).inInt64
          then add64 0 50 else 0) :=
  ⟨by decide!,
   roundDollarRule_spec amd64 ⟨"", "", "", [], "9.00"⟩ 0 (Float64.fin (9 * unit)) (by decide!)
     (by decide!)⟩

/-- C7, as stated, fails for the total `1e19`: it parses to the whole number
`10^19`, which is beyond int64, and the round-dollar rule adds nothing. -/
theorem roundDollarRule_beyond_int64 :
    ParseFloat "1e19" = .ok (Float64.fin (10 ^ 19 * unit)) ∧
    (Float64.fin (10 ^ 19 * unit)).isWhole = true ∧
    roundDollarRule amd64 ⟨"", "", "", [], "1e19"⟩ 0 = 0 := by
  refine ⟨by decide!, by decide!, by decide!⟩

/-- The rule reads the float64 that the text parses to, not the decimal text:
`0.99999999999999999999` is not a whole number, but it parses to `1.0` and the
rule adds 50. -/
theorem roundDollarRule_rounded_text :
    ParseFloat "0.99999999999999999999" = .ok (Float64.fin (1 * unit)) ∧
    roundDollarRule amd64 ⟨"", "", "", [], "0.99999999999999999999"⟩ 0 = 50 := by
  refine ⟨by decide!, by decide!⟩

/-- At exactly `2^63` the rule depends on the platform: the amd64 conversion
gives `-2^63` and the rule adds nothing, a saturating conversion gives
`2^63 - 1`, which converts back to `2^63`, and the rule adds 50. -/
theorem roundDollarRule_at_two_pow_63 :
    ParseFloat "9223372036854775808" = .ok (Float64.fin (2 ^ 63 * unit)) ∧
    roundDollarRule amd64 ⟨"", "", "", [], "9223372036854775808"⟩ 0 = 0 ∧
    roundDollarRule arm64 ⟨"", "", "", [], "9223372036854775808"⟩ 0 = 50 := by
  refine ⟨by decide!, by decide!, by decide!⟩

/-! ## Counterexamples to non-negativity, resolvability and the quarter rule -/

/-- C1. A receipt whose only item is a refund of 5.00 scores -1: the
description has 6 bytes, `-5.00 * 0.2` is `-1.0`, and `int(math.Ceil(-1.0))`
is added to a total of 0. -/
theorem CalculatePoints_negative :
    CalculatePoints amd64 ⟨"", "", "", [⟨"Refund", "-5.00"⟩], ""⟩ = -1 := by
  decide!

/-- C2. Processing that receipt into the empty store records -1 under the
fresh identifier, and the lookup handler then answers 404 "not found" for the
identifier it was given: -1 is also the not-found sentinel. -/
theorem GetPointsForReceipt_not_found_after_process :
    (ProcessReceipt amd64 [] ⟨"", "", "", [⟨"Refund", "-5.00"⟩], ""⟩ none
        "7fb1377b-b223-49d9-a31a-5a02701dd310").pointsForReceipt
      = [⟨"7fb1377b-b223-49d9-a31a-5a02701dd310", -1⟩] ∧
    GetPointsForReceipt
        (ProcessReceipt amd64 [] ⟨"", "", "", [⟨"Refund", "-5.00"⟩], ""⟩ none
          "7fb1377b-b223-49d9-a31a-5a02701dd310").pointsForReceipt
        "7fb1377b-b223-49d9-a31a-5a02701dd310"
      = Response.ErrorResponse 404
          "Receipt with ID 7fb1377b-b223-49d9-a31a-5a02701dd310 not found" := by
  decide!

/-- C3. The total `2.01` is 201 cents, not a multiple of 25, yet the quarter
rule adds 25: the float64 product `2.01 * 100` is `200.99999999999997`
(`7072058789855231 * 2^-45`), and `int` truncates it to 200. -/
theorem quarterRule_truncates :
    ParseFloat "2.01" = .ok (Float64.fin (4526117625507348 * 2 ^ 1023)) ∧
    (Float64.fin (4526117625507348 * 2 ^ 1023)).mul const100
      = Float64.fin (7072058789855231 * 2 ^ 1029) ∧
    toInt amd64 (Float64.fin (7072058789855231 * 2 ^ 1029)) = 200 ∧
    quarterRule amd64 ⟨"", "", "", [], "2.01"⟩ 0 = 25 ∧
    CalculatePoints amd64 ⟨"", "", "", [], "2.01"⟩ = 25 := by
  refine ⟨by decide!, by decide!, by decide!, by decide!, by decide!⟩


/-! ## The rules are additive steps -/

theorem additive_ite (c : Prop) [Decidable c] (k : Int) :
    Additive (fun p => if c then add64 p k else p) := by
  intro p hp
  unfold IsInt64 at hp
  by_cases h : c
  · simp only [h, if_true]
    unfold add64 wrap64 IsInt64
    omega
  · simp only [h, if_false]
    unfold add64 wrap64 IsInt64
    omega

theorem additive_id : Additive (fun p => p) := by
  intro p hp
  unfold IsInt64 at hp
  show p = add64 p 0 ∧ IsInt64 p
  unfold add64 wrap64 IsInt64
  omega

theorem additive_comp {f g : Int → Int} (hf : Additive f) (hg : Additive g) :
    Additive (fun p => g (f p)) := by
  intro p hp
  obtain ⟨f1, f2⟩ := hf p hp
  obtain ⟨g1, g2⟩ := hg (f p) f2
  obtain ⟨f01, f02⟩ := hf 0 (by unfold IsInt64; omega)
  obtain ⟨g01, _⟩ := hg (f 0) f02
  refine ⟨?_, g2⟩
  show g (f p) = add64 p (g (f 0))
  rw [g1, g01, f1]
  unfold add64 wrap64
  omega

theorem retailerRule_additive (receipt : Receipt) : Additive (retailerRule receipt) := by
  intro p hp
  unfold IsInt64 at hp
  unfold retailerRule add64 wrap64 IsInt64
  omega

theorem pairRule_additive (receipt : Receipt) : Additive (pairRule receipt) := by
  intro p hp
  unfold IsInt64 at hp
  unfold pairRule add64 wrap64 IsInt64
  simp only
  omega

theorem roundDollarRule_additive (oor : OutOfRange) (receipt : Receipt) :
    Additive (roundDollarRule oor receipt) := by
  unfold roundDollarRule
  cases ParseFloat receipt.Total with
  | error e => exact additive_id
  | ok v => exact additive_ite _ 50

theorem quarterRule_additive (oor : OutOfRange) (receipt : Receipt) :
    Additive (quarterRule oor receipt) := by
  unfold quarterRule
  cases ParseFloat receipt.Total with
  | error e => exact additive_id
  | ok v => exact additive_ite _ 25

theorem dayRule_additive (receipt : Receipt) : Additive (dayRule receipt) := by
  unfold dayRule
  cases parseDate receipt.PurchaseDate.toList with
  | none => exact additive_id
  | some t => exact additive_ite _ 6

theorem timeRule_additive (receipt : Receipt) : Additive (timeRule receipt) := by
  unfold timeRule
  cases parseClock receipt.PurchaseTime.toList with
  | none => exact additive_id
  | some t => exact additive_ite _ 10

theorem descriptionStep_additive (oor : OutOfRange) (item : Item) :
    Additive (fun p => descriptionStep oor p item) := by
  unfold descriptionStep
  cases ParseFloat item.Price with
  | error e => exact additive_id
  | ok v => exact additive_ite _ _

theorem descriptionRule_additive (oor : OutOfRange) (receipt : Receipt) :
    Additive (descriptionRule oor receipt) := by
  unfold descriptionRule
  generalize receipt.Items = items
  induction items with
  | nil => exact additive_id
  | cons item rest ih =>
    exact additive_comp (descriptionStep_additive oor item) ih

theorem roundDollarRule_zero (oor : OutOfRange) (receipt : Receipt) :
    roundDollarRule oor receipt 0 = 0 ∨ roundDollarRule oor receipt 0 = 50 := by
  unfold roundDollarRule
  split
  · split_ifs
    · exact Or.inr (by decide)
    · exact Or.inl rfl
  · exact Or.inl rfl

theorem quarterRule_zero (oor : OutOfRange) (receipt : Receipt) :
    quarterRule oor receipt 0 = 0 ∨ quarterRule oor receipt 0 = 25 := by
  unfold quarterRule
  split
  · simp only
    split_ifs
    · exact Or.inr (by decide)
    · exact Or.inl rfl
  · exact Or.inl rfl

/-- The score is the int64 sum of what the seven steps add to a zero total. -/
theorem CalculatePoints_eq_sum (oor : OutOfRange) (receipt : Receipt) :
    CalculatePoints oor receipt
      = wrap64 (retailerRule receipt 0 + roundDollarRule oor receipt 0
          + quarterRule oor receipt 0 + pairRule receipt 0 + descriptionRule oor receipt 0
          + dayRule receipt 0 + timeRule receipt 0) := by
  have h0 : IsInt64 0 := by unfold IsInt64; omega
  obtain ⟨_, a⟩ := retailerRule_additive receipt 0 h0
  obtain ⟨b1, b⟩ := roundDollarRule_additive oor receipt _ a
  obtain ⟨c1, c⟩ := quarterRule_additive oor receipt _ b
  obtain ⟨d1, d⟩ := pairRule_additive receipt _ c
  obtain ⟨e1, e⟩ := descriptionRule_additive oor receipt _ d
  obtain ⟨f1, f⟩ := dayRule_additive receipt _ e
  obtain ⟨g1, _⟩ := timeRule_additive receipt _ f
  unfold CalculatePoints
  simp only
  rw [g1, f1, e1, d1, c1, b1]
  simp only [add64, wrap64_add_left]

theorem sub64_sum (x1 x2 x3 x4 x5 a1 a2 b1 b2 : Int) (r1 : a1 = 0 ∨ a1 = 50)
    (r2 : a2 = 0 ∨ a2 = 50) (q1 : b1 = 0 ∨ b1 = 25) (q2 : b2 = 0 ∨ b2 = 25) :
    sub64 (wrap64 (x1 + a1 + b1 + x2 + x3 + x4 + x5))
        (wrap64 (x1 + a2 + b2 + x2 + x3 + x4 + x5))
      = a1 + b1 - (a2 + b2) := by
  unfold sub64 wrap64
  omega

/-- C10. Two receipts that differ only in the total: the difference of their
scores (Go `int` subtraction) is the difference of what the round-dollar and
quarter rules add, and each of the other five rules acts identically on
both. -/
theorem total_rules_independent (oor : OutOfRange) (receipt : Receipt) (total : String) :
    sub64 (CalculatePoints oor receipt) (CalculatePoints oor { receipt with Total := total })
        = (roundDollarRule oor receipt 0 + quarterRule oor receipt 0)
          - (roundDollarRule oor { receipt with Total := total } 0
              + quarterRule oor { receipt with Total := total } 0)
    ∧ ∀ points,
        retailerRule receipt points = retailerRule { receipt with Total := total } points
        ∧ pairRule receipt points = pairRule { receipt with Total := total } points
        ∧ descriptionRule oor receipt points
            = descriptionRule oor { receipt with Total := total } points
        ∧ dayRule receipt points = dayRule { receipt with Total := total } points
        ∧ timeRule receipt points = timeRule { receipt with Total := total } points := by
  refine ⟨?_, fun points => ⟨rfl, rfl, rfl, rfl, rfl⟩⟩
  rw [CalculatePoints_eq_sum, CalculatePoints_eq_sum]
  exact sub64_sum _ _ _ _ _ _ _ _ _ (roundDollarRule_zero oor receipt)
    (roundDollarRule_zero oor { receipt with Total := total }) (quarterRule_zero oor receipt)
    (quarterRule_zero oor { receipt with Total := total })

/-! ## Store, degradation, scenarios, total rules -/

theorem error_of_not_parses {s : String} (h : parses s = false) :
    ∃ e, ParseFloat s = .error e := by
  unfold parses at h
  split at h
  · simp at h
  · rename_i e he
    exact ⟨e, he⟩


theorem toInt_fin_of_fits (oor : OutOfRange) (k : Int)
    (h : -(2 ^ 63) ≤ Int.tdiv k (unit : Int) ∧ Int.tdiv k (unit : Int) < 2 ^ 63) :
    toInt oor (Float64.fin k) = Int.tdiv k unit := by
  unfold toInt
  simp only
  exact if_pos h

theorem totalRules_congr (oor : OutOfRange) (receipt : Receipt) (p : Int) (total : String)
    (ht : receipt.Total = total) :
    roundDollarRule oor receipt p = roundDollarRule oor ⟨"", "", "", [], total⟩ p
    ∧ quarterRule oor receipt p = quarterRule oor ⟨"", "", "", [], total⟩ p := by
  unfold roundDollarRule quarterRule
  rw [ht]
  exact ⟨rfl, rfl⟩

/-- With a total that passes `totalFitsCheck`, the two total rules do not
depend on the platform's out-of-range conversion, nor on the other fields. -/
theorem totalRules_amd64 (oor : OutOfRange) (receipt : Receipt) (p : Int) (total : String)
    (ht : receipt.Total = total) (h : totalFitsCheck total = true) :
    roundDollarRule oor receipt p = roundDollarRule amd64 ⟨"", "", "", [], total⟩ p
    ∧ quarterRule oor receipt p = quarterRule amd64 ⟨"", "", "", [], total⟩ p := by
  rw [(totalRules_congr oor receipt p total ht).1, (totalRules_congr oor receipt p total ht).2]
  unfold totalFitsCheck at h
  unfold roundDollarRule quarterRule
  simp only
  split at h
  · rename_i k hk
    rw [hk]
    simp only [Bool.and_eq_true, decide_eq_true_eq] at h
    obtain ⟨h1, h2⟩ := h
    simp only
    rw [toInt_fin_of_fits oor k h1, toInt_fin_of_fits amd64 k h1]
    refine ⟨rfl, ?_⟩
    split at h2
    · rename_i k2 hk2
      rw [hk2, toInt_fin_of_fits oor k2 (of_decide_eq_true h2),
        toInt_fin_of_fits amd64 k2 (of_decide_eq_true h2)]
    · simp at h2
  · simp at h

theorem ceilingFifth_eq_bonusOf (item : Item) : ceilingFifth item = bonusOf item.Price := by
  unfold ceilingFifth bonusOf
  cases ParseFloat item.Price with
  | error e => rfl
  | ok p =>
    simp only
    cases p.mul const0_2 with
    | fin k => exact Float64.ceiling_fin k
    | nan => rfl
    | inf b => rfl

theorem bonusFitsCheck_congr {item item2 : Item} (h : item.Price = item2.Price) :
    bonusFitsCheck item = bonusFitsCheck item2 := by
  unfold bonusFitsCheck
  rw [h]

theorem qualifies_eq (item : Item) :
    qualifies item = (parses item.Price && lengthDivisibleBy3 item) := rfl

theorem Lookup_append_of_absent (store : Store) (id : String) (p : Int)
    (h : ∀ e ∈ store, e.ID ≠ id) :
    LookupPointsByReceiptID (store ++ [⟨id, p⟩]) id = p := by
  induction store with
  | nil => simp [LookupPointsByReceiptID]
  | cons e rest ih =>
    have he : e.ID ≠ id := h e (List.mem_cons_self _ _)
    simp only [List.cons_append, LookupPointsByReceiptID, he, if_false]
    exact ih (fun x hx => h x (List.mem_cons_of_mem _ hx))

theorem Lookup_of_absent (store : Store) (x : String) (h : ∀ e ∈ store, e.ID ≠ x) :
    LookupPointsByReceiptID store x = -1 := by
  induction store with
  | nil => rfl
  | cons e rest ih =>
    have he : e.ID ≠ x := h e (List.mem_cons_self _ _)
    simp only [LookupPointsByReceiptID, he, if_false]
    exact ih (fun y hy => h y (List.mem_cons_of_mem _ hy))

theorem Lookup_append_of_present (store : Store) (x : String) (entry : ReceiptPoints)
    (h : ∃ e ∈ store, e.ID = x) :
    LookupPointsByReceiptID (store ++ [entry]) x = LookupPointsByReceiptID store x := by
  induction store with
  | nil => simp at h
  | cons e rest ih =>
    by_cases he : e.ID = x
    · simp [LookupPointsByReceiptID, he]
    · simp only [List.cons_append, LookupPointsByReceiptID, he, if_false]
      apply ih
      obtain ⟨e2, hm, h2⟩ := h
      rcases List.mem_cons.1 hm with rfl | hm2
      · exact absurd h2 he
      · exact ⟨e2, hm2, h2⟩

/-- C12. Store round trip: after appending `ReceiptPoints{ID: id, Points: p}`
to a store that has no entry with that identifier, the lookup of `id` returns
`p` (for every `p`, in particular every `p >= 0`); the record step of
`ProcessReceipt` is such an append, of `CalculatePoints(receipt)`. -/
theorem record_lookup_roundtrip (store : Store) (id : String) (p : Int)
    (h : ∀ e ∈ store, e.ID ≠ id) :
    LookupPointsByReceiptID (store ++ [{ ID := id, Points := p }]) id = p
    ∧ ∀ (oor : OutOfRange) (receipt : Receipt) (err : Option String),
        LookupPointsByReceiptID (ProcessReceipt oor store receipt err id).pointsForReceipt id
          = CalculatePoints oor receipt :=
  ⟨Lookup_append_of_absent store id p h,
   fun oor receipt _ => Lookup_append_of_absent store id (CalculatePoints oor receipt) h⟩

/-- Scenario C, first half: lookup right after recording 42. -/
theorem record_lookup_roundtrip_witness :
    LookupPointsByReceiptID
      ([⟨"a", 7⟩] ++ [{ ID := "7fb1377b-b223-49d9-a31a-5a02701dd310", Points := 42 }])
      "7fb1377b-b223-49d9-a31a-5a02701dd310" = 42 :=
  (record_lookup_roundtrip [⟨"a", 7⟩] "7fb1377b-b223-49d9-a31a-5a02701dd310" 42
    (by decide)).1

/-- C13. Not found: for an identifier that is the ID of no stored entry,
`LookupPointsByReceiptID` returns the sentinel -1 and `GetPointsForReceipt`
answers 404 with `Receipt with ID <id> not found`. -/
theorem lookup_not_found (store : Store) (x : String) (h : ∀ e ∈ store, e.ID ≠ x) :
    LookupPointsByReceiptID store x = -1
    ∧ GetPointsForReceipt store x
        = Response.ErrorResponse 404 ("Receipt with ID " ++ x ++ " not found") := by
  have h1 := Lookup_of_absent store x h
  refine ⟨h1, ?_⟩
  unfold GetPointsForReceipt
  simp only [h1]
  rfl

/-- Every identifier is not found in the empty store. -/
theorem lookup_not_found_witness :
    LookupPointsByReceiptID [] "7fb1377b-b223-49d9-a31a-5a02701dd310" = -1
    ∧ GetPointsForReceipt [] "7fb1377b-b223-49d9-a31a-5a02701dd310"
        = Response.ErrorResponse 404
            ("Receipt with ID " ++ "7fb1377b-b223-49d9-a31a-5a02701dd310" ++ " not found") :=
  lookup_not_found [] "7fb1377b-b223-49d9-a31a-5a02701dd310" (by simp)

/-- C14. No update or delete: for an identifier `x` already present in the
store, appending any entry `(y, q)`, even with `y = x`, leaves the result of
`LookupPointsByReceiptID(x)` unchanged. -/
theorem lookup_stable_under_append (store : Store) (x y : String) (q : Int)
    (h : ∃ e ∈ store, e.ID = x) :
    LookupPointsByReceiptID (store ++ [{ ID := y, Points := q }]) x
      = LookupPointsByReceiptID store x :=
  Lookup_append_of_present store x _ h

/-- Recording a second entry under an identifier already in use does not
change what that identifier resolves to. -/
theorem lookup_stable_under_append_witness :
    LookupPointsByReceiptID ([⟨"a", 7⟩] ++ [{ ID := "a", Points := 99 }]) "a"
      = LookupPointsByReceiptID [⟨"a", 7⟩] "a" :=
  lookup_stable_under_append [⟨"a", 7⟩] "a" "a" 99 ⟨⟨"a", 7⟩, by simp, rfl⟩

/-- C17. A body that fails to decode is not rejected: `ProcessReceipt` calls
`http.Error` and then carries on, so the store grows by one entry (the score
of whatever `receipt` holds) and the identifier is issued. For the zero
receipt and the empty store the entry is `(id, 0)`. -/
theorem ProcessReceipt_decode_error_still_records :
    (∀ (oor : OutOfRange) (store : Store) (receipt : Receipt) (msg id : String),
      (ProcessReceipt oor store receipt (some msg) id).pointsForReceipt
          = store ++ [{ ID := id, Points := CalculatePoints oor receipt }]
        ∧ (ProcessReceipt oor store receipt (some msg) id).ID = id)
    ∧ ProcessReceipt amd64 [] ⟨"", "", "", [], ""⟩
          (some "invalid character 'x' looking for beginning of value")
          "7fb1377b-b223-49d9-a31a-5a02701dd310"
        = { pointsForReceipt := [⟨"7fb1377b-b223-49d9-a31a-5a02701dd310", 0⟩],
            badRequest := some "invalid character 'x' looking for beginning of value",
            ID := "7fb1377b-b223-49d9-a31a-5a02701dd310" } :=
  ⟨fun _ _ _ _ _ => ⟨rfl, rfl⟩, by decide!⟩

theorem descriptionStep_comm (oor : OutOfRange) (z : Int) (x y : Item) :
    descriptionStep oor (descriptionStep oor z x) y
      = descriptionStep oor (descriptionStep oor z y) x := by
  unfold descriptionStep
  simp only
  cases ParseFloat x.Price <;> cases ParseFloat y.Price <;> simp only
  split_ifs <;> first | rfl | (unfold add64 wrap64; omega)

/-- C20. Item order is irrelevant: a receipt whose item list is a permutation
of another's, all other fields equal, has the same score. -/
theorem CalculatePoints_perm (oor : OutOfRange) (receipt : Receipt) (items : List Item)
    (h : receipt.Items.Perm items) :
    CalculatePoints oor { receipt with Items := items } = CalculatePoints oor receipt := by
  have hlen : items.length = receipt.Items.length := h.length_eq.symm
  have hfold : ∀ p, descriptionRule oor { receipt with Items := items } p
      = descriptionRule oor receipt p := by
    intro p
    unfold descriptionRule
    exact (List.Perm.foldl_eq' h (fun x _ y _ z => descriptionStep_comm oor z x y) p).symm
  have hpair : ∀ p, pairRule { receipt with Items := items } p = pairRule receipt p := by
    intro p
    unfold pairRule
    simp only [hlen]
  unfold CalculatePoints
  simp only
  rw [hpair, hfold]
  rfl

/-- Swapping the two items of a receipt. -/
theorem CalculatePoints_perm_witness :
    CalculatePoints amd64
        { (⟨"Target", "2022-01-01", "13:01",
            [⟨"Emils Cheese Pizza", "12.25"⟩, ⟨"Gatorade", "2.25"⟩], "35.35"⟩ : Receipt) with
          Items := [⟨"Gatorade", "2.25"⟩, ⟨"Emils Cheese Pizza", "12.25"⟩] }
      = CalculatePoints amd64
          ⟨"Target", "2022-01-01", "13:01",
            [⟨"Emils Cheese Pizza", "12.25"⟩, ⟨"Gatorade", "2.25"⟩], "35.35"⟩ :=
  CalculatePoints_perm amd64 _ _ (List.Perm.swap _ _ _)

theorem descriptionRule_unparseable (oor : OutOfRange) (receipt : Receipt)
    (h : ∀ item ∈ receipt.Items, parses item.Price = false) (p : Int) :
    descriptionRule oor receipt p = p := by
  unfold descriptionRule
  generalize receipt.Items = items at h
  induction items with
  | nil => rfl
  | cons item rest ih =>
    obtain ⟨e, he⟩ := error_of_not_parses (h item (List.mem_cons_self _ _))
    have hs : descriptionStep oor p item = p := by
      unfold descriptionStep
      rw [he]
    rw [List.foldl_cons, hs]
    exact ih (fun it hit => h it (List.mem_cons_of_mem _ hit))

/-- C11. Graceful degradation. A total that fails to parse makes the
round-dollar and quarter rules add nothing; likewise an unparseable date for
the odd-day rule, an unparseable time for the afternoon rule and an
unparseable price for that item's description bonus. When all of them fail,
the score is the number of ASCII letters and digits of the retailer plus
`5 * floor(n / 2)` for `n` items (as an int64 sum; exactly that number whenever
it is below `2^63`). -/
theorem CalculatePoints_degrades (oor : OutOfRange) (receipt : Receipt) :
    (parses receipt.Total = false →
        ∀ p, roundDollarRule oor receipt p = p ∧ quarterRule oor receipt p = p)
    ∧ (parseDate receipt.PurchaseDate.toList = none → ∀ p, dayRule receipt p = p)
    ∧ (parseClock receipt.PurchaseTime.toList = none → ∀ p, timeRule receipt p = p)
    ∧ (∀ item, parses item.Price = false →
        ∀ p, descriptionStep oor p item = p)
    ∧ (parses receipt.Total = false →
        parseDate receipt.PurchaseDate.toList = none →
        parseClock receipt.PurchaseTime.toList = none →
        (∀ item ∈ receipt.Items, parses item.Price = false) →
        CalculatePoints oor receipt
            = wrap64 ((receipt.Retailer.toList.countP Char.isAlphanum : Nat)
                + 5 * ((receipt.Items.length / 2 : Nat) : Int))
          ∧ (((receipt.Retailer.toList.countP Char.isAlphanum : Nat) : Int)
                + 5 * ((receipt.Items.length / 2 : Nat) : Int) < 2 ^ 63 →
              CalculatePoints oor receipt
                = (receipt.Retailer.toList.countP Char.isAlphanum : Nat)
                  + 5 * ((receipt.Items.length / 2 : Nat) : Int))) := by
  have hT : parses receipt.Total = false →
      ∀ p, roundDollarRule oor receipt p = p ∧ quarterRule oor receipt p = p := by
    intro hp p
    obtain ⟨e, he⟩ := error_of_not_parses hp
    unfold roundDollarRule quarterRule
    rw [he]
    exact ⟨rfl, rfl⟩
  have hD : parseDate receipt.PurchaseDate.toList = none → ∀ p, dayRule receipt p = p := by
    intro h p
    unfold dayRule
    rw [h]
  have hC : parseClock receipt.PurchaseTime.toList = none → ∀ p, timeRule receipt p = p := by
    intro h p
    unfold timeRule
    rw [h]
  refine ⟨hT, hD, hC, ?_, ?_⟩
  · intro item hp p
    obtain ⟨e, he⟩ := error_of_not_parses hp
    unfold descriptionStep
    rw [he]
  · intro h1 h2 h3 h4
    have hsum : CalculatePoints oor receipt
        = wrap64 ((receipt.Retailer.toList.countP Char.isAlphanum : Nat)
            + 5 * ((receipt.Items.length / 2 : Nat) : Int)) := by
      unfold CalculatePoints
      simp only
      rw [hC h3, hD h2, descriptionRule_unparseable oor receipt h4, (hT h1 _).2, (hT h1 _).1]
      unfold pairRule retailerRule
      rw [FindAllString_length,
        List.countP_congr (fun c _ => by rw [alnumClass_matches] : ∀ c ∈ receipt.Retailer.toList,
          (alnumClass.matches c = true ↔ c.isAlphanum = true))]
      simp only [add64, wrap64_add_left, zero_add]
      congr 1
      omega
    refine ⟨hsum, fun hlt => ?_⟩
    rw [hsum]
    apply wrap64_of_isInt64
    unfold IsInt64
    omega

/-- A receipt in which nothing parses: 6 for `Target`, 10 for five items. -/
theorem CalculatePoints_degrades_witness :
    CalculatePoints amd64
        ⟨"Target", "01/01/2022", "1pm",
          [⟨"a", "x"⟩, ⟨"b", ""⟩, ⟨"c", "$1"⟩, ⟨"d", "1,5"⟩, ⟨"e", "1e"⟩], "12 USD"⟩
      = wrap64 ((("Target".toList.countP Char.isAlphanum : Nat) : Int)
          + 5 * (((5 : Nat) / 2 : Nat) : Int)) :=
  ((CalculatePoints_degrades amd64
      ⟨"Target", "01/01/2022", "1pm",
        [⟨"a", "x"⟩, ⟨"b", ""⟩, ⟨"c", "$1"⟩, ⟨"d", "1,5"⟩, ⟨"e", "1e"⟩], "12 USD"⟩).2.2.2.2
    (by decide!) (by decide!) (by decide!) (by decide!)).1


theorem sum_map_const {α : Type} (f : α → Int) (c : Int) (l : List α)
    (h : ∀ x ∈ l, f x = c) : (l.map f).sum = c * l.length := by
  induction l with
  | nil => simp
  | cons a rest ih =>
    rw [List.map_cons, List.sum_cons, h a (List.mem_cons_self _ _),
      ih (fun x hx => h x (List.mem_cons_of_mem _ hx)), List.length_cons]
    push_cast
    ring

/-- C15. Scenario A: retailer `Target`, total `35.35`, date `2022-01-01`, time
`13:01`, five items of which exactly one has a trimmed description length
divisible by 3, that one priced `12.25`: the score is 25 = 6 + 10 + 3 + 6. -/
theorem scenarioA (oor : OutOfRange) (items : List Item) (h5 : items.length = 5)
    (h1 : items.countP lengthDivisibleBy3 = 1)
    (hprice : ∀ it ∈ items, lengthDivisibleBy3 it = true → it.Price = "12.25") :
    CalculatePoints oor ⟨"Target", "2022-01-01", "13:01", items, "35.35"⟩ = 25 := by
  have hq : ∀ it ∈ items, qualifies it = lengthDivisibleBy3 it := by
    intro it hit
    rw [qualifies_eq]
    by_cases hd : lengthDivisibleBy3 it = true
    · have hp : parses it.Price = true := by
        rw [hprice it hit hd]; decide!
      rw [hp, hd]; rfl
    · have hd2 : lengthDivisibleBy3 it = false := by simpa using hd
      rw [hd2]; simp
  have hfilter : items.filter qualifies = items.filter lengthDivisibleBy3 :=
    List.filter_congr hq
  have hbonus : descriptionBonus items = 3 := by
    unfold descriptionBonus
    rw [hfilter, sum_map_const ceilingFifth 3, ← List.countP_eq_length_filter, h1]
    · rfl
    · intro it hit
      obtain ⟨hmem, hd⟩ := List.mem_filter.1 hit
      rw [ceilingFifth_eq_bonusOf, hprice it hmem hd]
      decide!
  have hfin : ∀ item ∈ items, qualifies item = true →
      ∀ price, ParseFloat item.Price = .ok price →
        ∃ k, price.mul const0_2 = Float64.fin k ∧ IsInt64 (Float64.fin k).ceiling := by
    intro item hit hqual price hprice2
    have hd : lengthDivisibleBy3 item = true := by rw [← hq item hit]; exact hqual
    have hP := hprice item hit hd
    rw [hP] at hprice2
    have hcheck : ∀ it ∈ [(⟨"", "12.25"⟩ : Item)], bonusFitsCheck it = true := by decide!
    exact bonusFits_of_check hcheck ⟨"", "12.25"⟩
      (List.mem_singleton.2 rfl) (by decide!) price hprice2
  have h0 : IsInt64 0 := by unfold IsInt64; omega
  have e1 : retailerRule ⟨"Target", "2022-01-01", "13:01", items, "35.35"⟩ 0 = 6 :=
    (by decide! : retailerRule ⟨"Target", "", "", [], ""⟩ 0 = 6)
  have hfits : totalFitsCheck "35.35" = true := by decide!
  have e2 : roundDollarRule oor ⟨"Target", "2022-01-01", "13:01", items, "35.35"⟩ 0 = 0 := by
    rw [(totalRules_amd64 oor _ 0 "35.35" rfl hfits).1]
    decide!
  have e3 : quarterRule oor ⟨"Target", "2022-01-01", "13:01", items, "35.35"⟩ 0 = 0 := by
    rw [(totalRules_amd64 oor _ 0 "35.35" rfl hfits).2]
    decide!
  have e4 : pairRule ⟨"Target", "2022-01-01", "13:01", items, "35.35"⟩ 0 = 10 := by
    unfold pairRule
    simp only [h5]
    decide
  have e5 : descriptionRule oor ⟨"Target", "2022-01-01", "13:01", items, "35.35"⟩ 0 = 3 := by
    unfold descriptionRule
    rw [descriptionStep_foldl oor items 0 h0 hfin, hbonus]
    decide
  have e6 : dayRule ⟨"Target", "2022-01-01", "13:01", items, "35.35"⟩ 0 = 6 :=
    (by decide! : dayRule ⟨"", "2022-01-01", "", [], ""⟩ 0 = 6)
  have e7 : timeRule ⟨"Target", "2022-01-01", "13:01", items, "35.35"⟩ 0 = 0 :=
    (by decide! : timeRule ⟨"", "", "13:01", [], ""⟩ 0 = 0)
  rw [CalculatePoints_eq_sum, e1, e2, e3, e4, e5, e6, e7]
  decide


/-- Scenario A on a concrete receipt: only `Emils Cheese Pizza` (18 bytes) has
a description length divisible by 3. -/
theorem scenarioA_witness :
    CalculatePoints amd64
      ⟨"Target", "2022-01-01", "13:01",
        [⟨"Mountain Dew 12PK", "6.49"⟩, ⟨"Emils Cheese Pizza", "12.25"⟩,
         ⟨"Knorr Creamy Chicken", "1.26"⟩, ⟨"Doritos Nacho Cheese", "3.35"⟩,
         ⟨"   Klarbrunn 12-PK 12 FL OZ.  ", "12.00"⟩], "35.35"⟩ = 25 :=
  scenarioA amd64
    [⟨"Mountain Dew 12PK", "6.49"⟩, ⟨"Emils Cheese Pizza", "12.25"⟩,
     ⟨"Knorr Creamy Chicken", "1.26"⟩, ⟨"Doritos Nacho Cheese", "3.35"⟩,
     ⟨"   Klarbrunn 12-PK 12 FL OZ.  ", "12.00"⟩]
    (by decide) (by decide!) (by decide!)

/-- C16, amended. Scenario B: retailer `M&M Corner Market`, total `9.00`, date
`2022-03-20`, time `14:33` and exactly one item that does not take part in the
description-length bonus (its trimmed description length is not divisible by
3, or its price does not parse): the score is 99 = 14 + 50 + 25 + 10. -/
theorem scenarioB (oor : OutOfRange) (item : Item) (h : qualifies item = false) :
    CalculatePoints oor ⟨"M&M Corner Market", "2022-03-20", "14:33", [item], "9.00"⟩ = 99 := by
  have e1 : retailerRule ⟨"M&M Corner Market", "2022-03-20", "14:33", [item], "9.00"⟩ 0 = 14 :=
    (by decide! : retailerRule ⟨"M&M Corner Market", "", "", [], ""⟩ 0 = 14)
  have hfits : totalFitsCheck "9.00" = true := by decide!
  have e2 : roundDollarRule oor
      ⟨"M&M Corner Market", "2022-03-20", "14:33", [item], "9.00"⟩ 0 = 50 := by
    rw [(totalRules_amd64 oor _ 0 "9.00" rfl hfits).1]
    decide!
  have e3 : quarterRule oor
      ⟨"M&M Corner Market", "2022-03-20", "14:33", [item], "9.00"⟩ 0 = 25 := by
    rw [(totalRules_amd64 oor _ 0 "9.00" rfl hfits).2]
    decide!
  have e4 : pairRule ⟨"M&M Corner Market", "2022-03-20", "14:33", [item], "9.00"⟩ 0 = 0 := by
    unfold pairRule
    simp only [List.length_singleton]
    decide
  have e5 : descriptionRule oor
      ⟨"M&M Corner Market", "2022-03-20", "14:33", [item], "9.00"⟩ 0 = 0 :=
    descriptionStep_not_qualifies oor 0 item h
  have e6 : dayRule ⟨"M&M Corner Market", "2022-03-20", "14:33", [item], "9.00"⟩ 0 = 0 :=
    (by decide! : dayRule ⟨"", "2022-03-20", "", [], ""⟩ 0 = 0)
  have e7 : timeRule ⟨"M&M Corner Market", "2022-03-20", "14:33", [item], "9.00"⟩ 0 = 10 :=
    (by decide! : timeRule ⟨"", "", "14:33", [], ""⟩ 0 = 10)
  rw [CalculatePoints_eq_sum, e1, e2, e3, e4, e5, e6, e7]
  decide

/-- Scenario B with one `Gatorade` (8 bytes). -/
theorem scenarioB_witness :
    CalculatePoints amd64
      ⟨"M&M Corner Market", "2022-03-20", "14:33", [⟨"Gatorade", "2.25"⟩], "9.00"⟩ = 99 :=
  scenarioB amd64 ⟨"Gatorade", "2.25"⟩ (by decide!)

/-- C16, as stated, fails when the single item takes part in the
description-length bonus: with the item `Dasani` (6 bytes) priced `1.40` the
score is 100, not 99. -/
theorem scenarioB_one_qualifying_item :
    CalculatePoints amd64
      ⟨"M&M Corner Market", "2022-03-20", "14:33", [⟨"Dasani", "1.40"⟩], "9.00"⟩ = 100 := by
  decide!


theorem exists_shift (j : Nat) : ∀ n, 2 ^ 52 ≤ n * 2 ^ j → n < 2 ^ 53 →
    ∃ i, i ≤ j ∧ 2 ^ 52 ≤ n * 2 ^ i ∧ n * 2 ^ i < 2 ^ 53 := by
  induction j with
  | zero => intro n h1 h2; exact ⟨0, le_refl _, h1, by simpa using h2⟩
  | succ j ih =>
    intro n h1 h2
    by_cases h : 2 ^ 52 ≤ n * 2 ^ j
    · obtain ⟨i, hi, a, b⟩ := ih n h h2
      exact ⟨i, by omega, a, b⟩
    · refine ⟨j + 1, le_refl _, h1, ?_⟩
      have e : n * 2 ^ (j + 1) = 2 * (n * 2 ^ j) := by ring
      have : (2 : Nat) ^ 53 = 2 * 2 ^ 52 := by norm_num
      omega

theorem representable_small_mul (n e : Nat) (h : n < 2 ^ 53) : Representable (n * 2 ^ e) := by
  by_cases h0 : n = 0
  · subst h0
    exact Or.inl (by simp)
  · have hpos : 0 < n := Nat.pos_of_ne_zero h0
    obtain ⟨i, _, a, b⟩ := exists_shift 52 n (Nat.le_mul_of_pos_left _ hpos) h
    by_cases hie : i ≤ e
    · refine Or.inr ⟨n * 2 ^ i, e - i, a, b, ?_⟩
      rw [Nat.mul_assoc, ← pow_add]
      congr 2
      omega
    · refine Or.inl (lt_of_le_of_lt ?_ b)
      exact Nat.mul_le_mul_left _ (Nat.pow_le_pow_right (by norm_num) (by omega))

theorem roundNearestEven_mul_right (a d : Nat) (hd : 0 < d) :
    roundNearestEven (a * d) d = roundNearestEven a 1 := by
  unfold roundNearestEven
  simp only [Nat.mul_div_cancel _ hd, Nat.div_one, Nat.one_mul]
  generalize excessBits a a = s
  rw [Nat.mul_comm a d, Nat.mul_div_mul_left _ _ hd, Nat.mul_mod_mul_left]
  have h1 : 2 * (d * (a % 2 ^ s)) < d * 2 ^ s ↔ 2 * (a % 2 ^ s) < 2 ^ s := by
    rw [Nat.mul_left_comm]
    exact Nat.mul_lt_mul_left hd
  have h2 : d * 2 ^ s < 2 * (d * (a % 2 ^ s)) ↔ 2 ^ s < 2 * (a % 2 ^ s) := by
    rw [Nat.mul_left_comm]
    exact Nat.mul_lt_mul_left hd
  simp only [h1, h2]

/-- The float64 product of a whole number `t` and 100 is exact while
`|t| * 100 < 2^53`. -/
theorem mul_const100_whole (t : Int) (h : t.natAbs * 100 < 2 ^ 53) :
    (Float64.fin (t * unit)).mul const100 = Float64.fin (t * 100 * unit) := by
  have hu : 0 < unit := by unfold unit; positivity
  have hui : (0 : Int) < unit := by exact_mod_cast hu
  unfold Float64.mul const100 roundToFloat64
  simp only
  have e1 : (t * (unit : Int)).natAbs * (100 * (unit : Int)).natAbs
      = (t.natAbs * 100 * unit) * unit := by
    rw [Int.natAbs_mul, Int.natAbs_mul, Int.natAbs_ofNat]
    simp only [Int.reduceAbs]
    ring
  have hrep : Representable (t.natAbs * 100 * unit) := by
    unfold unit
    exact representable_small_mul _ 1074 h
  have key : roundNearestEven ((t * (unit : Int)).natAbs * (100 * (unit : Int)).natAbs) unit
      = t.natAbs * 100 * unit := by
    rw [e1, roundNearestEven_mul_right _ _ hu, roundNearestEven_exact hrep]
  rewrite [key]
  have hmax : ¬ maxFinite < t.natAbs * 100 * unit := by
    have h3 : 2 ^ 53 * unit ≤ maxFinite := by unfold unit maxFinite; decide!
    have h4 : t.natAbs * 100 * unit < 2 ^ 53 * unit := Nat.mul_lt_mul_of_pos_right h hu
    omega
  rewrite [if_neg hmax]
  apply congrArg Float64.fin
  have hneg : (decide (t * (unit : Int) < 0) != decide (100 * (unit : Int) < 0))
      = decide (t < 0) := by
    have a : ¬ (100 * (unit : Int) < 0) := by omega
    have b : (t * (unit : Int) < 0) ↔ t < 0 := by
      constructor
      · intro hlt
        by_contra hge
        have : 0 ≤ t * (unit : Int) := Int.mul_nonneg (by omega) (le_of_lt hui)
        omega
      · intro hlt
        exact mul_neg_of_neg_of_pos hlt hui
    simp [a, b]
  rewrite [hneg]
  unfold signed
  by_cases ht : t < 0
  · simp only [ht, decide_True, if_true]
    push_cast
    rw [abs_of_neg ht]
    ring
  · simp only [ht, decide_False]
    push_cast
    rw [abs_of_nonneg (by omega)]


theorem quarterRule_whole (oor : OutOfRange) (receipt : Receipt) (p : Int) (t : Int)
    (h : ParseFloat receipt.Total = .ok (Float64.fin (t * unit)))
    (ht : t.natAbs * 100 < 2 ^ 53) :
    quarterRule oor receipt p = add64 p 25 := by
  have hu : (unit : Int) ≠ 0 := by unfold unit; positivity
  unfold quarterRule
  rewrite [h]
  simp only
  rewrite [mul_const100_whole t ht]
  have hdiv : Int.tdiv (t * 100 * (unit : Int)) unit = t * 100 := Int.mul_tdiv_cancel _ hu
  have hfit : -(2 ^ 63) ≤ Int.tdiv (t * 100 * (unit : Int)) unit
      ∧ Int.tdiv (t * 100 * (unit : Int)) unit < 2 ^ 63 := by
    rw [hdiv]
    omega
  rewrite [toInt_fin_of_fits oor _ hfit, hdiv]
  have hmod : Int.tmod (t * 100) 25 = 0 := Int.tmod_eq_zero_of_dvd ⟨t * 4, by ring⟩
  rw [if_pos hmod]

/-- C19, amended. For a total that parses to NaN, to an infinity, or to a
finite value `v` with `|v| * 100 < 2^53`, the round-dollar rule firing implies
that the quarter rule fires, and the two total rules together add 0, 25 or
75, never exactly 50. -/
theorem totalRules_never_50 (oor : OutOfRange) (receipt : Receipt) (v : Float64)
    (h : ParseFloat receipt.Total = .ok v)
    (hr : ∀ k, v = Float64.fin k → k.natAbs * 100 < 2 ^ 53 * unit) :
    (roundDollarRule oor receipt 0 = 50 → quarterRule oor receipt 0 = 25)
    ∧ (quarterRule oor receipt (roundDollarRule oor receipt 0) = 0
        ∨ quarterRule oor receipt (roundDollarRule oor receipt 0) = 25
        ∨ quarterRule oor receipt (roundDollarRule oor receipt 0) = 75) := by
  have hr2 : ∀ k, v = Float64.fin k →
      -(2 ^ 63) * (unit : Int) ≤ k ∧ k < 2 ^ 63 * (unit : Int) := by
    intro k hk
    have := hr k hk
    omega
  have hrep : ∀ k, v = Float64.fin k → Representable k.natAbs := by
    intro k hk
    rw [hk] at h
    exact ParseFloat_representable h
  have hrd : roundDollarRule oor receipt 0 = (if v.isWhole then add64 0 50 else 0) := by
    unfold roundDollarRule
    rw [h]
    simp only
    rw [eq_ofInt_toInt oor v hrep hr2]
  by_cases hw : v.isWhole = true
  · have h50 : roundDollarRule oor receipt 0 = 50 := by
      rw [hrd, if_pos hw]; decide
    cases v with
    | nan => simp [Float64.isWhole] at hw
    | inf b => simp [Float64.isWhole] at hw
    | fin k =>
      have hdvd : (unit : Int) ∣ k := of_decide_eq_true hw
      obtain ⟨t, rfl⟩ := hdvd
      have hu : 0 < unit := by unfold unit; positivity
      have ht : t.natAbs * 100 < 2 ^ 53 := by
        have h1 := hr _ rfl
        rw [Int.natAbs_mul, Int.natAbs_ofNat] at h1
        have h2 : t.natAbs * 100 * unit < 2 ^ 53 * unit := by
          calc t.natAbs * 100 * unit = unit * t.natAbs * 100 := by ring
            _ < 2 ^ 53 * unit := h1
        exact Nat.lt_of_mul_lt_mul_right h2
      have h' : ParseFloat receipt.Total = .ok (Float64.fin (t * unit)) := by
        rw [h, Int.mul_comm]
      have q0 := quarterRule_whole oor receipt 0 t h' ht
      have q50 := quarterRule_whole oor receipt 50 t h' ht
      refine ⟨fun _ => by rw [q0]; decide, Or.inr (Or.inr ?_)⟩
      rw [h50, q50]
      decide
  · have h0 : roundDollarRule oor receipt 0 = 0 := by
      rw [hrd, if_neg hw]
    refine ⟨fun h50 => ?_, ?_⟩
    · rw [h0] at h50
      exact absurd h50 (by decide)
    · rw [h0]
      rcases quarterRule_zero oor receipt with hq | hq
      · exact Or.inl hq
      · exact Or.inr (Or.inl hq)

/-- The two total rules on the total `9.00`: 50 and 25. -/
theorem totalRules_never_50_witness :
    roundDollarRule amd64 ⟨"", "", "", [], "9.00"⟩ 0 = 50
    ∧ quarterRule amd64 ⟨"", "", "", [], "9.00"⟩ 0 = 25 :=
  ⟨by decide!,
   (totalRules_never_50 amd64 ⟨"", "", "", [], "9.00"⟩ (Float64.fin (9 * unit)) (by decide!)
      (by
        intro k hk
        cases hk
        decide!)).1 (by decide!)⟩

/-- C19, as stated, fails for the total `400000000000001`: it is a whole
number, so the round-dollar rule adds 50, but the float64 product with 100 is
`40000000000000096` (the exact `40000000000000100` is not a float64), which is
not divisible by 25, so the quarter rule adds nothing and the two rules
together add exactly 50. -/
theorem totalRules_exactly_50 :
    ParseFloat "400000000000001" = .ok (Float64.fin (400000000000001 * unit)) ∧
    (Float64.fin (400000000000001 * unit)).mul const100
      = Float64.fin (40000000000000096 * unit) ∧
    roundDollarRule amd64 ⟨"", "", "", [], "400000000000001"⟩ 0 = 50 ∧
    quarterRule amd64 ⟨"", "", "", [], "400000000000001"⟩ 0 = 0 ∧
    quarterRule amd64 ⟨"", "", "", [], "400000000000001"⟩
      (roundDollarRule amd64 ⟨"", "", "", [], "400000000000001"⟩ 0) = 50 := by
  refine ⟨by decide!, by decide!, by decide!, by decide!, by decide!⟩

/-! ## No panic -/

theorem MustCompile_alnum : MustCompile "[a-zA-Z0-9]" = .ok alnumClass := by decide!

/-- C18. `CalculatePoints` never fails: for every receipt and every platform
behaviour of the out-of-range conversion, the pattern compiles, no panic
branch is taken, and the result is an int64. This includes totals and prices
that parse to NaN, to an infinity or to `1e308`, and the empty item list. -/
theorem CalculatePoints_never_fails (oor : OutOfRange) (receipt : Receipt) :
    CalculatePointsChecked oor receipt = .ok (CalculatePoints oor receipt)
    ∧ IsInt64 (CalculatePoints oor receipt)
    ∧ CalculatePointsChecked amd64 ⟨"", "", "", [], "NaN"⟩ = .ok 0
    ∧ CalculatePointsChecked amd64
        ⟨"", "", "", [⟨"", "NaN"⟩, ⟨"", "-Inf"⟩, ⟨"", "1e308"⟩], "Inf"⟩
        = .ok (-(2 ^ 63) + 5) := by
  refine ⟨?_, ?_, by decide!, by decide!⟩
  · unfold CalculatePointsChecked
    rw [MustCompile_alnum]
    rfl
  · rw [CalculatePoints_eq_sum]
    exact wrap64_isInt64 _

end Fetch
